import Mathlib

/-!
Verification development for the shader-recompiler core of the shadPS4
repository (hull-shader transform pass, SSA instruction graph with use/def
bookkeeping, SPIR-V emission context).

The C++ sources are shallowly embedded:
* expression trees and the hull-shader address-resolution pass follow
  src/shader_recompiler/ir/passes/hull_shader_transform.cpp;
* the mutable instruction graph (SetArg / AddUse / RemoveUse /
  ReplaceUsesWith) follows src/shader_recompiler/ir/microinstruction.cpp and
  the Value/Inst header;
* the emission-context fragments follow EmitContext::DefinePushDataBlock and
  EmitContext::DefineSharedMemory.

Machine integers are modelled as Nat with explicit reduction mod 2^32 where
the C++ computes in u32.  C++ exceptions and failed ASSERT macros are
modelled as Except errors; DEBUG_ASSERT is treated the same way (a failed
assertion is a contract violation, not a recoverable state).  Loops the C++
performs over heap pointers of unbounded depth (Identity chains in the
pointer-graph model) are modelled with explicit fuel.
-/

set_option maxRecDepth 16000

namespace Shad

/-- IR opcodes used by the modelled components.  The opcode table itself
(opcodes.inc) is not among the provided sources; the constructors are the
opcodes referenced by the provided code. -/
inductive Opcode where
  | Void
  | Identity
  | Phi
  | IAdd32
  | IMul32
  | ShiftLeftLogical32
  | BitFieldSExtract
  | BitFieldUExtract
  | BitCastF32U32
  | BitCastU32F32
  | GetAttribute
  | GetAttributeU32
  | SetAttribute
  | GetUserData
  | ReadConstBuffer
  | CompositeConstructU32x2
  | CompositeConstructU32x3
  | CompositeConstructU32x4
  | LoadSharedU32
  | LoadSharedU64
  | LoadSharedU128
  | WriteSharedU32
  | WriteSharedU64
  | WriteSharedU128
  | StoreBufferU32
  | StoreBufferU32x2
  | StoreBufferU32x3
  | StoreBufferU32x4
  | SetPatch
  deriving DecidableEq, Repr

/-- Modelled from the spec: each opcode determines a fixed argument arity
(the opcode table is not among the provided sources; arities are taken from
how the provided code accesses arguments).  Phi arity is dynamic and not
read from this table. -/
def NumArgsOf : Opcode → Nat
  | .Void => 0
  | .Identity => 1
  | .Phi => 0
  | .IAdd32 => 2
  | .IMul32 => 2
  | .ShiftLeftLogical32 => 2
  | .BitFieldSExtract => 3
  | .BitFieldUExtract => 3
  | .BitCastF32U32 => 1
  | .BitCastU32F32 => 1
  | .GetAttribute => 2
  | .GetAttributeU32 => 2
  | .SetAttribute => 3
  | .GetUserData => 1
  | .ReadConstBuffer => 2
  | .CompositeConstructU32x2 => 2
  | .CompositeConstructU32x3 => 3
  | .CompositeConstructU32x4 => 4
  | .LoadSharedU32 => 1
  | .LoadSharedU64 => 1
  | .LoadSharedU128 => 1
  | .WriteSharedU32 => 2
  | .WriteSharedU64 => 2
  | .WriteSharedU128 => 2
  | .StoreBufferU32 => 3
  | .StoreBufferU32x2 => 3
  | .StoreBufferU32x3 => 3
  | .StoreBufferU32x4 => 3
  | .SetPatch => 2

theorem numArgsOf_le_six : ∀ op : Opcode, NumArgsOf op ≤ 6 := by
  intro op; cases op <;> simp [NumArgsOf]

/-- 2^32, the modulus of u32 arithmetic. -/
def U32Mod : Nat := 4294967296

namespace Hull

/-- Attributes referenced by the hull-shader transform.  The attribute enum
header is not among the provided sources; constructors are modelled from the
spec (primitive id / invocation id semantic attributes, the packed
invocation-info register, and the tessellation-constant scalars published
from the tessellation-constants buffer, laid out contiguously from
TcsLsStride to TcsFirstEdgeTessFactorIndex). -/
inductive Attribute where
  | PrimitiveId
  | InvocationId
  | PackedHullInvocationInfo
  | TcsLsStride
  | TcsCpStride
  | TcsNumPatches
  | TcsOutputBase
  | TcsPatchConstSize
  | TcsPatchConstBase
  | TcsPatchOutputSize
  | TcsOffChipTessellationFactorThreshold
  | TcsFirstEdgeTessFactorIndex
  | Param (n : Nat)
  deriving DecidableEq, Repr

/-- Modelled from the spec: per-patch output designators (patch.h is not
among the provided sources).  PatchFactor selects a tessellation-factor
slot, PatchGeneric a generic per-patch-constant dword slot. -/
inductive Patch where
  | factor (idx : Nat)
  | generic (dw : Nat)
  deriving DecidableEq, Repr

/-- Expression-tree view of IR::Value as consumed by the hull-shader pass.
An inst node carries the producing opcode and its argument trees; the other
constructors are the immediate payload variants used by the pass. -/
inductive Value where
  | void
  | immU32 (n : Nat)
  | attr (a : Attribute)
  | sreg (r : Nat)
  | patch (p : Patch)
  | inst (op : Opcode) (args : List Value)

/-- Skip through Identity indirection: while the value is an Identity
instruction, move to its first argument (a missing argument reads as the
zero-initialized void value, as the fixed argument array does). -/
def stripId : Value → Value
  | .inst .Identity (a :: _) => stripId a
  | .inst .Identity [] => .void
  | v => v

/-- Value::IsImmediate: resolve Identity chains, then report whether the
ultimate value is a non-opaque (constant) payload. -/
def Value.isImmediate (v : Value) : Bool :=
  match stripId v with
  | .inst _ _ => false
  | _ => true

/-- Value::TryInstRecursive: resolve Identity chains; yield the producing
opcode and arguments when the resolved value is opaque, none otherwise. -/
def Value.tryInstRecursive (v : Value) : Option (Opcode × List Value) :=
  match stripId v with
  | .inst op args => some (op, args)
  | _ => none

/-- Value::U32: resolve Identity chains and read the u32 payload; a
type-mismatched read is the asserted contract violation (none). -/
def Value.u32 (v : Value) : Option Nat :=
  match stripId v with
  | .immU32 n => some n
  | _ => none

/-- Value::Type() resolved to the question FindIndexInfo asks: is this an
attribute-typed value (resolving Identity indirection)? -/
def Value.isAttributeType (v : Value) : Bool :=
  match stripId v with
  | .attr _ => true
  | _ => false

/-- The direct attribute payload of a value (Value::Attribute reads the
payload without resolving Identity). -/
def Value.attribute : Value → Option Attribute
  | .attr a => some a
  | _ => none

/-- Value::IsEmpty: the zero-initialized / void state. -/
def Value.isEmpty : Value → Bool
  | .void => true
  | _ => false

/-- Failure conditions of the pass, one constructor per distinct C++ abort
site (ASSERT / DEBUG_ASSERT / UNREACHABLE / undefined shift). -/
inductive Err where
  | fuelOut
  | addWithinMul
  | shiftUB
  | shiftAmountNotU32
  | tessHandleShape
  | tessUserDataNotSreg
  | tessOffsetNotU32
  | multipleDynamicTerms
  | offsetFactorNotU32
  | regionCountPassthrough
  | regionCountRange
  | attributePayload
  | walkNotSharedOp
  | storeDataNotComposite
  | writeDataNotInst
  | setOutputRegion
  | remainingSharedInst
  deriving DecidableEq, Repr

/-- Replace the last element of a list (the C++ container back()). -/
def modifyLast (f : α → α) : List α → List α
  | [] => []
  | [x] => [f x]
  | x :: y :: xs => x :: modifyLast f (y :: xs)

/-- Walk state of Pass::Visit: the within-multiplication flag, the list of
terms (outermost addends, in original nested IR) and for each term its list
of linear factors. -/
structure WalkState where
  within_mul : Bool
  terms : List Value
  linear_products : List (List Value)

/-- Append a factor to the current (last) linear-factor list:
linear_products.back().emplace_back(v). -/
def WalkState.pushFactor (s : WalkState) (v : Value) : WalkState :=
  { s with linear_products := modifyLast (fun t => t ++ [v]) s.linear_products }

/-- The tessellation-constant scalars, in buffer order: offsets 0 through
TcsFirstEdgeTessFactorIndex - TcsLsStride map to these attributes. -/
def tessConstAttrList : List Attribute :=
  [.TcsLsStride, .TcsCpStride, .TcsNumPatches, .TcsOutputBase, .TcsPatchConstSize,
   .TcsPatchConstBase, .TcsPatchOutputSize, .TcsOffChipTessellationFactorThreshold,
   .TcsFirstEdgeTessFactorIndex]

/-- Pass::TryReplaceTessConstantLoad on a ReadConstBuffer node with the
given handle and index operands.  Returns the value the walk will use as the
factor: the matching tessellation-constant attribute when the index is a
statically-known small offset, the original node otherwise.  The one-time
extraction of the tessellation-constants structure and the in-place IR
replacement mutate state outside the walked expression and are not needed by
the addressed claims; the structural matching and its asserted failure modes
are modelled faithfully. -/
def tryReplaceTessConstantLoad (node : Value) (handle index : Value) :
    Except Err Value :=
  match index.tryInstRecursive with
  | some (.IAdd32, [off, z]) =>
    if off.isImmediate ∧ z.u32 = some 0 then
      match handle.tryInstRecursive with
      | some (.CompositeConstructU32x4, ud :: _) =>
        match ud.tryInstRecursive with
        | some (.GetUserData, [udBase]) =>
          if udBase.isImmediate then
            match udBase with
            | .sreg _ =>
              match off.u32 with
              | some o =>
                if o < tessConstAttrList.length then
                  .ok (.attr (tessConstAttrList.getD o .TcsLsStride))
                else
                  .ok node
              | none => .error .tessOffsetNotU32
            | _ => .error .tessUserDataNotSreg
          else .error .tessHandleShape
        | _ => .error .tessHandleShape
      | _ => .error .tessHandleShape
    else .ok node
  | _ => .ok node

/-- The immediate factor the shift branch of Pass::Visit appends for a
statically-known shift amount b: u32(2 << (b - 1)), with the subtraction and
the shift performed in unsigned 32-bit arithmetic.  The wrapping u32
subtraction b - 1 is written as a case split: it is b % 2^32 - 1 except at
b ≡ 0, where it wraps to 2^32 - 1.  A shift count of 32 or more (in
particular the wrapped 0xFFFFFFFF) is undefined in the source language and
is modelled as a hard failure. -/
def shiftFactor (b : Nat) : Except Err Nat :=
  let count := if b % U32Mod = 0 then U32Mod - 1 else b % U32Mod - 1
  if count < 32 then .ok ((2 * 2 ^ count) % U32Mod) else .error .shiftUB

/-- One step of Pass::Visit - linearize an address expression into
sum-of-products form, branch for branch after the C++ (each pattern resolves
Identity chains via TryInstRecursive before comparing the opcode).  The
DEBUG_ASSERT(!within_mul) in the IAdd32 branch is modelled as a hard
failure.  `recurse` stands for the self-call of the C++; the recursion runs
on the expression tree, and visitF below iterates this step with one unit of
explicit fuel per visited node (any fuel at least the tree depth gives the
same result as the C++ recursion). -/
def visitStep (recurse : WalkState → Value → Except Err WalkState)
    (s : WalkState) (node : Value) : Except Err WalkState :=
  match stripId node with
  | .inst .IMul32 [a, b] =>
    match recurse { s with within_mul := true } a with
    | .error e => .error e
    | .ok s1 =>
      match recurse s1 b with
      | .error e => .error e
      | .ok s2 => .ok { s2 with within_mul := s.within_mul }
  | .inst .IAdd32 [a, b] =>
    if s.within_mul then .error .addWithinMul
    else
      match recurse (if ¬ s.within_mul then
          { s with terms := modifyLast (fun _ => a) s.terms }
        else s) a with
      | .error e => .error e
      | .ok s1 =>
        recurse (if s1.within_mul then
            { s1 with linear_products := s1.linear_products ++ [[]],
                      terms := s1.terms ++ [b] }
          else s1) b
  | .inst .ShiftLeftLogical32 [a, b] =>
    if b.isImmediate then
      match b.u32 with
      | some bv =>
        match shiftFactor bv with
        | .error e => .error e
        | .ok f => recurse (s.pushFactor (.immU32 f)) a
      | none => .error .shiftAmountNotU32
    else
      .ok (s.pushFactor node)
  | .inst .ReadConstBuffer [handle, index] =>
    match tryReplaceTessConstantLoad node handle index with
    | .error e => .error e
    | .ok v => .ok (s.pushFactor v)
  | .inst .BitFieldSExtract [a, _, _] => recurse s a
  | .inst .BitFieldUExtract [a, _, _] => recurse s a
  | .inst .BitCastF32U32 [a] => recurse s a
  | .inst .BitCastU32F32 [a] => recurse s a
  | _ => .ok (s.pushFactor node)

/-- Pass::Visit as iterated steps: one unit of fuel per visited node. -/
def visitF : Nat → WalkState → Value → Except Err WalkState
  | 0, _, _ => .error .fuelOut
  | fuel + 1, s, node => visitStep (visitF fuel) s node

/-- The attribute regions the transform distinguishes, with Unknown at
numeric value 3 as in the C++ enum. -/
inductive AttributeRegion where
  | InputCP
  | OutputCP
  | PatchConst
  | Unknown
  deriving DecidableEq, Repr

/-- The ephemeral classification of one ring address: region tag, statically
resolved byte offset, and the at-most-one dynamic index value. -/
structure RingAddressInfo where
  region : AttributeRegion
  attribute_byte_offset : Nat
  control_point_index : Value

/-- The filter predicate of FindIndexInfo applied to one term, threading the
region counter: scans the factors in order; a "number of patches" or
"output-control-point base" factor adds one to the counter and drops the
term; a "patch-constant base" factor adds two and keeps scanning; a
primitive-id factor drops the term.  Value::Attribute on an attribute-typed
value that is not a direct attribute payload is the asserted contract
violation. -/
def termScan : List Value → Nat → Except Err (Nat × Bool)
  | [], acc => .ok (acc, true)
  | v :: rest, acc =>
    if v.isAttributeType then
      match v.attribute with
      | some .TcsNumPatches => .ok (acc + 1, false)
      | some .TcsOutputBase => .ok (acc + 1, false)
      | some .TcsPatchConstBase => termScan rest (acc + 2)
      | some .PrimitiveId => .ok (acc, false)
      | some _ => termScan rest acc
      | none => .error .attributePayload
    else termScan rest acc

/-- The side effects of the discarded boost::adaptors::filter call in
FindIndexInfo.  Constructing the lazily filtered range evaluates the
predicate on successive terms only until the first term the predicate keeps
(the begin iterator advances past dropped terms and stops there); nothing is
ever removed from linear_products.  The accumulated region counter is
therefore the sum of the predicate's side effects over that prefix. -/
def regionScan : List (List Value) → Nat → Except Err Nat
  | [], acc => .ok acc
  | t :: ts, acc =>
    match termScan t acc with
    | .error e => .error e
    | .ok r => if r.2 then .ok r.1 else regionScan ts r.1

/-- The std::accumulate fold over one term's factors inside FindIndexInfo:
each factor must be a u32 immediate (asserted), and the running value is
multiplied by it in u32 arithmetic.  The seed at the call site is 0. -/
def accumTerm : List Value → Nat → Except Err Nat
  | [], acc => .ok acc
  | v :: rest, acc =>
    if v.isImmediate then
      match v.u32 with
      | some n => accumTerm rest (acc * n % U32Mod)
      | none => .error .offsetFactorNotU32
    else .error .offsetFactorNotU32

/-- The main loop of FindIndexInfo over all of linear_products (nothing was
removed by the filter): a term containing a non-immediate factor is recorded
as the control-point index (at most one such term, asserted); every other
term is folded by accumTerm from seed 0 and added to the byte offset in u32
arithmetic. -/
def gatherLoop (terms : List Value) : List (List Value) → Nat → Value → Nat →
    Except Err (Value × Nat)
  | [], _, ci, off => .ok (ci, off)
  | t :: ts, i, ci, off =>
    if t.any (fun v => ! v.isImmediate) then
      if ci.isEmpty then gatherLoop terms ts (i + 1) (terms.getD i .void) off
      else .error .multipleDynamicTerms
    else
      match accumTerm t 0 with
      | .error e => .error e
      | .ok p => gatherLoop terms ts (i + 1) ci ((off + p) % U32Mod)

/-- The C++ cast AttributeRegion(region_count). -/
def regionOfCount : Nat → AttributeRegion
  | 0 => .InputCP
  | 1 => .OutputCP
  | 2 => .PatchConst
  | _ => .Unknown

/-- The classification epilogue of FindIndexInfo: region count zero is the
input-control-point region; in passthrough mode the count is asserted at
most one and the region is per-patch-constant; otherwise the count is
asserted at most two and cast directly to the region enum. -/
def classifyRegion (passthrough : Bool) (rc : Nat) : Except Err AttributeRegion :=
  if rc = 0 then .ok .InputCP
  else if passthrough then
    if rc ≤ 1 then .ok .PatchConst else .error .regionCountPassthrough
  else
    if rc ≤ 2 then .ok (regionOfCount rc) else .error .regionCountRange

/-- Pass::FindIndexInfo over the walk state produced by Visit. -/
def findIndexInfo (passthrough : Bool) (terms : List Value)
    (lps : List (List Value)) : Except Err RingAddressInfo :=
  match regionScan lps 0 with
  | .error e => .error e
  | .ok rc =>
    match gatherLoop terms lps 0 .void 0 with
    | .error e => .error e
    | .ok r =>
      match classifyRegion passthrough rc with
      | .error e => .error e
      | .ok region => .ok ⟨region, r.2, r.1⟩

/-- The shared-memory load/store opcodes the pass must eliminate. -/
def isSharedMemOp : Opcode → Bool
  | .LoadSharedU32 => true
  | .LoadSharedU64 => true
  | .LoadSharedU128 => true
  | .WriteSharedU32 => true
  | .WriteSharedU64 => true
  | .WriteSharedU128 => true
  | _ => false

/-- Modelled from the spec: the bit-packed per-instruction flags viewed as
IR::BufferInstInfo (the flag header is not among the provided sources); the
pass reads the globally-coherent bit and the static instruction offset. -/
structure BufferInstInfo where
  globally_coherent : Bool
  inst_offset : Nat
  deriving DecidableEq, Repr

/-- An instruction of the walked program: opcode, flags, argument trees. -/
structure HInst where
  op : Opcode
  flags : BufferInstInfo
  args : List Value

/-- Zero-initialized flags for instructions the pass emits. -/
def defaultFlags : BufferInstInfo := ⟨false, 0⟩

/-- Inst::Invalidate on a block instruction: arguments cleared and the
opcode demoted to the Void sentinel; the node stays in the block. -/
def invalidateInst (i : HInst) : HInst := ⟨.Void, i.flags, []⟩

/-- Pass::WalkRingAccess: reset the walk state, seed one empty term with the
access address (argument 0 of the shared-memory access; any other opcode is
unreachable), run Visit, then FindIndexInfo.  The fuel bounds the walk depth
(any value at least the address-tree depth leaves the result unchanged). -/
def walkRingAccess (fuel : Nat) (passthrough : Bool) (access : HInst) :
    Except Err RingAddressInfo :=
  if ¬ isSharedMemOp access.op then .error .walkNotSharedOp
  else
    let addr := access.args.getD 0 .void
    match visitF fuel ⟨false, [addr], [[]]⟩ addr with
    | .error e => .error e
    | .ok s => findIndexInfo passthrough s.terms s.linear_products

/-- The GetValue lambda of the buffer-store rewrite: unwrap a
BitCastU32F32 producer, otherwise emit a fresh float bit-pattern cast. -/
def getValue (data : Value) : Value :=
  match data.tryInstRecursive with
  | some (.BitCastU32F32, args) => args.getD 0 .void
  | _ => .inst .BitCastF32U32 [data]

/-- num_dwords of a tessellation-factor buffer store:
u32(opcode) - u32(StoreBufferU32) + 1. -/
def storeBufferNumDwords : Opcode → Option Nat
  | .StoreBufferU32 => some 1
  | .StoreBufferU32x2 => some 2
  | .StoreBufferU32x3 => some 3
  | .StoreBufferU32x4 => some 4
  | _ => none

/-- The SetOutput lambda of the shared-memory write rewrite: bitcast the
dword to float, then either a per-vertex attribute write (parameter slot and
component decoded from the dword offset) or a per-patch-constant write.  The
remaining region value fails the lambda's assertion. -/
def setOutput (value : Value) (offset_dw : Nat) (region : AttributeRegion) :
    Except Err HInst :=
  let data : Value := .inst .BitCastF32U32 [value]
  if region = .OutputCP then
    .ok ⟨.SetAttribute, defaultFlags,
      [.attr (.Param (offset_dw >>> 2)), data, .immU32 (offset_dw % 4)]⟩
  else if region = .PatchConst then
    .ok ⟨.SetPatch, defaultFlags, [.patch (.generic offset_dw), data]⟩
  else .error .setOutputRegion

/-- One iteration of the main rewrite loop of HullShaderTransform on one
instruction, returning the instructions that occupy its place afterwards
(instructions the IREmitter inserts before it, followed by the invalidated
original where the original is invalidated).

* A buffer store marked globally-coherent becomes per-patch
  tessellation-factor writes at factor_idx = inst_offset >> 2 (one per
  dword; multi-dword stores must be fed by a composite construct, asserted).
* WriteSharedU32/U64 walk their ring address and become attribute or
  per-patch writes; WriteSharedU128 is not handled (TODO in the source) and
  survives, as do the shared loads.
-/
def rewriteInst (fuel : Nat) (passthrough : Bool) (inst : HInst) : Except Err (List HInst) :=
  match storeBufferNumDwords inst.op with
  | some num_dwords =>
    if ¬ inst.flags.globally_coherent then .ok [inst]
    else
      let factor_idx := inst.flags.inst_offset >>> 2
      let data := inst.args.getD 2 .void
      if num_dwords = 1 then
        .ok [⟨.SetPatch, defaultFlags, [.patch (.factor factor_idx), getValue data]⟩,
             invalidateInst inst]
      else
        match data.tryInstRecursive with
        | some (op2, cargs) =>
          if op2 = .CompositeConstructU32x2 ∨ op2 = .CompositeConstructU32x3 ∨
              op2 = .CompositeConstructU32x4 then
            .ok ((List.range num_dwords).map (fun i =>
                ⟨.SetPatch, defaultFlags,
                 [.patch (.factor (factor_idx + i)), getValue (cargs.getD i .void)]⟩)
              ++ [invalidateInst inst])
          else .error .storeDataNotComposite
        | none => .error .storeDataNotComposite
  | none =>
    if inst.op = .WriteSharedU32 ∨ inst.op = .WriteSharedU64 then
      let num_dwords := if inst.op = .WriteSharedU32 then 1 else 2
      let data := inst.args.getD 1 .void
      let lohiE : Except Err (Value × Value) :=
        if num_dwords = 1 then .ok (data, Value.void)
        else
          match data.tryInstRecursive with
          | some (_, pargs) => .ok (pargs.getD 0 .void, pargs.getD 1 .void)
          | none => .error Err.writeDataNotInst
      match lohiE with
      | .error e => .error e
      | .ok lohi =>
        match walkRingAccess fuel passthrough inst with
        | .error e => .error e
        | .ok address_info =>
          let offset_dw := address_info.attribute_byte_offset >>> 2
          match setOutput lohi.1 offset_dw address_info.region with
          | .error e => .error e
          | .ok out1 =>
            if num_dwords > 1 then
              match setOutput lohi.2 (offset_dw + 1) address_info.region with
              | .error e => .error e
              | .ok out2 => .ok [out1, out2, invalidateInst inst]
            else
              .ok [out1, invalidateInst inst]
    else
      .ok [inst]

/-- Match one of the two packed-invocation-info bitfield idioms: a
BitFieldUExtract of bits [0,8) of the packed hull invocation info attribute
reads the primitive id, bits [8,13) the invocation id. -/
def matchBfeIdiom (v : Value) : Option Attribute :=
  match v.tryInstRecursive with
  | some (.BitFieldUExtract, [base, off, cnt]) =>
    match base.tryInstRecursive with
    | some (.GetAttributeU32, a :: _) =>
      if a.isAttributeType ∧ a.attribute = some .PackedHullInvocationInfo then
        if off.u32 = some 0 ∧ cnt.u32 = some 8 then some .PrimitiveId
        else if off.u32 = some 8 ∧ cnt.u32 = some 5 then some .InvocationId
        else none
      else none
    | _ => none
  | _ => none

/-- Rewrite every subtree matching a recognized bitfield idiom to the direct
attribute read (the tree image of ReplaceUsesWithAndRemove rewiring every
user of the matched instruction to the emitted GetAttributeU32). -/
def normalizeValue (v : Value) : Value :=
  match matchBfeIdiom v with
  | some a => .inst .GetAttributeU32 [.attr a, .immU32 0]
  | none =>
    match v with
    | .inst op args => .inst op (args.attach.map (fun x => normalizeValue x.1))
    | x => x
termination_by sizeOf v
decreasing_by
  have h2 := List.sizeOf_lt_of_mem x.2
  simp
  omega

/-- The idiom-normalization loop on one block instruction: a matching
instruction is replaced (the emitted attribute read inserted before it, the
original invalidated); every other instruction sees the rewrite through its
argument trees. -/
def normalizeInst (i : HInst) : List HInst :=
  match matchBfeIdiom (.inst i.op i.args) with
  | some a => [⟨.GetAttributeU32, defaultFlags, [.attr a, .immU32 0]⟩,
               invalidateInst i]
  | none => [⟨i.op, i.flags, i.args.map normalizeValue⟩]

/-- A basic block: the ordered instruction list. -/
abbrev Block := List HInst

/-- A program: the ordered list of blocks. -/
abbrev Program := List Block

/-- The idiom-normalization pass over all blocks (first loop of
HullShaderTransform). -/
def normalizePass (p : Program) : Program :=
  p.map (fun b => b.flatMap normalizeInst)

/-- The main rewrite loop of HullShaderTransform over all blocks. -/
def rewritePass (fuel : Nat) (passthrough : Bool) (p : Program) : Except Err Program :=
  p.mapM (fun b => (b.mapM (rewriteInst fuel passthrough)).map List.flatten)

/-- Does any instruction of the program carry a shared-memory opcode? -/
def hasSharedInst (p : Program) : Bool :=
  p.any (fun b => b.any (fun i => isSharedMemOp i.op))

/-- The completeness scan after the rewrite loop: any remaining shared
memory instruction is the UNREACHABLE hard failure. -/
def finalCheck (p : Program) : Except Err Unit :=
  if hasSharedInst p then .error .remainingSharedInst else .ok ()

/-- HullShaderTransform: idiom normalization, the main rewrite loop, then
the completeness scan.  The passthrough epilogue only reads the runtime
flag (the attribute copy is elided in the source). -/
def hullShaderTransform (fuel : Nat) (passthrough : Bool) (p : Program) : Except Err Program :=
  match rewritePass fuel passthrough (normalizePass p) with
  | .error e => .error e
  | .ok p2 =>
    match finalCheck p2 with
    | .error e => .error e
    | .ok _ => .ok p2

end Hull

end Shad

namespace Shad

namespace SPIRV

/-- The shader stages of the emission context. -/
inductive Stage where
  | Vertex
  | Local
  | Export
  | Hull
  | Geometry
  | Fragment
  | Compute
  deriving DecidableEq, Repr

/-- The unsigned 32-bit scalar/vector types of the push-constant block:
U32[1] and U32[4] in the source's type cache. -/
inductive SpvType where
  | u32Vec (arity : Nat)
  deriving DecidableEq, Repr

/-- One member of the push-constant block: its MemberName, its type in the
TypeStruct call, and its MemberDecorate byte offset. -/
structure PushMember where
  name : String
  ty : SpvType
  offset : Nat
  deriving DecidableEq, Repr

/-- The static usage info consumed by the modelled emission fragments; only
the field read by DefineSharedMemory appears. -/
structure Info where
  uses_shared : Bool
  deriving DecidableEq, Repr

/-- The member types of the AuxData struct, in TypeStruct order. -/
def pushDataTypes : List SpvType :=
  [.u32Vec 1, .u32Vec 1, .u32Vec 4, .u32Vec 4, .u32Vec 4, .u32Vec 4, .u32Vec 4, .u32Vec 4]

/-- The MemberName calls, in member order. -/
def pushDataNames : List String :=
  ["sr0", "sr1", "buf_offsets0", "buf_offsets1", "ud_regs0", "ud_regs1", "ud_regs2", "ud_regs3"]

/-- The MemberDecorate Offset values, in member order. -/
def pushDataOffsets : List Nat := [0, 4, 8, 24, 40, 56, 72, 88]

/-- EmitContext::DefinePushDataBlock: declare the AuxData push-constant
struct.  The function reads neither the stage nor the usage info; the
parameters stand for the whole emission-context state it could have
consulted. -/
def definePushDataBlock (stage : Stage) (info : Info) : List PushMember :=
  (pushDataTypes.zip (pushDataNames.zip pushDataOffsets)).map
    (fun x => ⟨x.2.1, x.1, x.2.2⟩)

/-- The 2_KB fallback used when the runtime declares no shared-memory
size. -/
def DefaultSharedMemSize : Nat := 2048

/-- Modelled from the spec: Common::DivCeil (common/div_ceil.h is not among
the provided sources) - division rounding up to the next whole multiple. -/
def divCeil (a b : Nat) : Nat := (a + (b - 1)) / b

/-- EmitContext::DefineSharedMemory: no declaration unless the program uses
shared memory; otherwise a workgroup array of
DivCeil(shared_memory_size, 4) 32-bit words, where a declared size of zero
falls back to the 2_KB default.  The result is the declared element count
(none when nothing is declared). -/
def defineSharedMemory (info : Info) (shared_memory_size_in : Nat) : Option Nat :=
  if ¬ info.uses_shared then none
  else
    let shared_memory_size :=
      if shared_memory_size_in = 0 then DefaultSharedMemSize else shared_memory_size_in
    some (divCeil shared_memory_size 4)

end SPIRV

namespace Micro

/-- IR::Value as stored in instruction argument slots, restricted to the
payload kinds the use/def bookkeeping distinguishes: the zero-initialized
void state, a pointer to a producing instruction (the one type whose
IsImmediate resolution can say false), and the immediate payloads (every
non-pointer-typed union member behaves alike here).  Instruction pointers
are Nat indices into a graph standing in for the heap. -/
inductive Value where
  | void
  | instRef (id : Nat)
  | immU32 (n : Nat)
  | attr (a : Nat)
  deriving DecidableEq, Repr

/-- Value::Inst(): the payload pointer; its DEBUG_ASSERT restricts it to
pointer-typed values, so every other payload yields none. -/
def Value.inst : Value → Option Nat
  | .instRef i => some i
  | _ => none

/-- One node of Inst::UserList: a using instruction and the 32-bit mask of
the operand positions at which it points here. -/
structure UserNode where
  user : Nat
  operand_mask : Nat
  deriving DecidableEq, Repr

/-- Inst::UserList: the node list plus the running use counter. -/
structure UserList where
  list : List UserNode
  num_uses : Nat
  deriving DecidableEq, Repr

/-- The argument storage union of IR::Inst: a phi instruction holds a
growable vector of (predecessor block, value) pairs, every other opcode a
fixed std::array of six values.  Predecessor blocks are opaque Nat ids. -/
inductive ArgStore where
  | phiArgs (l : List (Nat × Value))
  | args (a : List Value)
  deriving DecidableEq, Repr

/-- IR::Inst restricted to the fields the modelled member functions
touch. -/
structure Inst where
  op : Opcode
  flags : Nat
  store : ArgStore
  users : UserList
  deriving DecidableEq, Repr

/-- Inst::Inst(op, flags): a phi constructs the pair vector, every other
opcode the six-slot array (value-initialized, i.e. all void). -/
def mkInst (op : Opcode) (flags : Nat) : Inst :=
  ⟨op, flags, if op = .Phi then .phiArgs [] else .args (List.replicate 6 .void), ⟨[], 0⟩⟩

/-- The instruction graph standing in for the pointer heap: every Nat id
maps to an instruction. -/
abbrev Graph := Nat → Inst

/-- A store through one instruction pointer. -/
def setInst (g : Graph) (i : Nat) (inst : Inst) : Graph :=
  fun j => if j = i then inst else g j

/-- Inst::NumArgs: the dynamic phi operand count for a phi, the opcode
arity otherwise.  (A phi whose union holds the fixed array is never built;
that unreachable read is given the defensive value 0.) -/
def numArgs (i : Inst) : Nat :=
  if i.op = .Phi then
    match i.store with
    | .phiArgs l => l.length
    | .args _ => 0
  else NumArgsOf i.op

/-- Inst::Arg: phi_args[index].second for a phi, args[index] otherwise.
An index beyond the container (undefined in C++, always guarded by the
callers) yields void, as does the unreachable union mismatch. -/
def argOf (i : Inst) (index : Nat) : Value :=
  if i.op = .Phi then
    match i.store with
    | .phiArgs l => (l.getD index (0, .void)).2
    | .args _ => .void
  else
    match i.store with
    | .args a => a.getD index .void
    | .phiArgs _ => .void

/-- Value::IsImmediate: follow the Identity chain through Arg(0) and
report whether it ends at a non-pointer payload.  The C++ while loop
terminates because well-formed graphs have no Identity cycle; here one
unit of fuel is spent per Identity hop and a cyclic chain exhausts it
(none). -/
def isImmediateF (g : Graph) : Nat → Value → Option Bool
  | _, .void => some true
  | _, .immU32 _ => some true
  | _, .attr _ => some true
  | 0, .instRef i => if (g i).op = .Identity then none else some false
  | fuel + 1, .instRef i =>
      if (g i).op = .Identity then isImmediateF g fuel (argOf (g i) 0)
      else some false

/-- Value::Resolve: follow Identity producers through Arg(0) to the first
non-Identity producer or immediate payload, with the same fuel discipline
as isImmediateF. -/
def resolveF (g : Graph) : Nat → Value → Option Value
  | 0, .instRef i => if (g i).op = .Identity then none else some (.instRef i)
  | fuel + 1, .instRef i =>
      if (g i).op = .Identity then resolveF g fuel (argOf (g i) 0)
      else some (.instRef i)
  | _, v => some v

/-- First-match update: apply f to the first entry satisfying p
(std::find_if followed by a write through the iterator). -/
def updateFirst (p : α → Bool) (f : α → α) : List α → List α
  | [] => []
  | x :: xs => if p x then f x :: xs else x :: updateFirst p f xs

/-- In-place update of one element (container[index] = ...). -/
def modifyAt (f : α → α) : Nat → List α → List α
  | _, [] => []
  | 0, x :: xs => f x :: xs
  | n + 1, x :: xs => x :: modifyAt f n xs

/-- The failure conditions of the modelled member functions: the
out-of-bounds throw of SetArg, the DEBUG_ASSERT/ASSERT/UNREACHABLE aborts,
and fuel exhaustion of the Identity-chain walks (reachable only on cyclic
graphs). -/
inductive MErr where
  | outOfRange
  | assertFail
  | fuelOut
  deriving DecidableEq, Repr

/-- Inst::UserList::AddUse on the node list: DEBUG_ASSERT(operand < 31);
find the node of this user; absent, push a fresh node at the front holding
the single-bit mask 1 << operand; present, DEBUG_ASSERT the bit is clear
and or it into the mask.  For operand < 31 the u32 value 1 << operand is
exactly 2 ^ operand. -/
def addUseList (user operand : Nat) (l : List UserNode) :
    Except MErr (List UserNode) :=
  if operand < 31 then
    match l.find? (fun n => n.user == user) with
    | none => .ok (⟨user, 2 ^ operand⟩ :: l)
    | some n =>
        if n.operand_mask &&& 2 ^ operand = 0 then
          .ok (updateFirst (fun m => m.user == user)
                (fun m => ⟨m.user, m.operand_mask ||| 2 ^ operand⟩) l)
        else .error .assertFail
  else .error .assertFail

/-- Inst::UserList::RemoveUse on the node list: find the node of this user
(DEBUG_ASSERT it exists), DEBUG_ASSERT the bit is set, clear it
(mask &= ~(1 << operand); the u32 complement ~(1 << operand) is
2 ^ operand xor (2 ^ 32 - 1)), and erase the node when its mask becomes
zero.  (RemoveUse itself never checks operand < 31; the callers only
remove what AddUse registered, and a shift amount of 32 or more would be
undefined in the source.) -/
def removeUseList (user operand : Nat) : List UserNode → Except MErr (List UserNode)
  | [] => .error .assertFail
  | n :: rest =>
      if n.user == user then
        if n.operand_mask &&& 2 ^ operand ≠ 0 then
          if n.operand_mask &&& (2 ^ operand ^^^ (2 ^ 32 - 1)) = 0 then .ok rest
          else .ok (⟨n.user, n.operand_mask &&& (2 ^ operand ^^^ (2 ^ 32 - 1))⟩ :: rest)
        else .error .assertFail
      else
        match removeUseList user operand rest with
        | .ok rest2 => .ok (n :: rest2)
        | .error e => .error e

/-- Inst::Use: used->users.AddUse(this, operand), bumping num_uses. -/
def addUse (g : Graph) (used user operand : Nat) : Except MErr Graph :=
  match addUseList user operand (g used).users.list with
  | .error e => .error e
  | .ok l =>
      .ok (setInst g used
        { g used with users := ⟨l, (g used).users.num_uses + 1⟩ })

/-- Inst::UndoUse: used->users.RemoveUse(this, operand), decrementing
num_uses (a u32 decrement; the model truncates at zero, reachable only
through states that would wrap in the source). -/
def removeUse (g : Graph) (used user operand : Nat) : Except MErr Graph :=
  match removeUseList user operand (g used).users.list with
  | .error e => .error e
  | .ok l =>
      .ok (setInst g used
        { g used with users := ⟨l, (g used).users.num_uses - 1⟩ })

/-- The final write of Inst::SetArg on one instruction:
phi_args[index].second = value for a phi, args[index] = value
otherwise. -/
def writeArgInst (inst : Inst) (index : Nat) (v : Value) : Inst :=
  if inst.op = .Phi then
    { inst with store :=
        match inst.store with
        | .phiArgs l => .phiArgs (modifyAt (fun p => (p.1, v)) index l)
        | .args a => .args a }
  else
    { inst with store :=
        match inst.store with
        | .args a => .args (modifyAt (fun _ => v) index a)
        | .phiArgs l => .phiArgs l }

/-- The final write of Inst::SetArg through the graph. -/
def writeArg (g : Graph) (i index : Nat) (v : Value) : Graph :=
  setInst g i (writeArgInst (g i) index v)

/-- The registration half of Inst::SetArg for the incoming value: when it
is not immediate, Use(value.Inst(), index); then the slot is written. -/
def setArgRegister (fuelI : Nat) (g : Graph) (i index : Nat) (v : Value) :
    Except MErr Graph :=
  match isImmediateF g fuelI v with
  | none => .error .fuelOut
  | some true => .ok (writeArg g i index v)
  | some false =>
      match v.inst with
      | none => .error .assertFail
      | some p =>
          match addUse g p i index with
          | .error e => .error e
          | .ok g1 => .ok (writeArg g1 i index v)

/-- Inst::SetArg: the out-of-bounds throw against NumArgs comes first and
precedes every mutation; then UndoUse of the previous non-immediate
argument, registration of the new value, and the slot write.  fuelI bounds
the Identity-chain walks of IsImmediate. -/
def setArg (fuelI : Nat) (g : Graph) (i index : Nat) (v : Value) :
    Except MErr Graph :=
  if numArgs (g i) ≤ index then .error .outOfRange
  else
    match isImmediateF g fuelI (argOf (g i) index) with
    | none => .error .fuelOut
    | some true => setArgRegister fuelI g i index v
    | some false =>
        match (argOf (g i) index).inst with
        | none => .error .assertFail
        | some q =>
            match removeUse g q i index with
            | .error e => .error e
            | .ok g1 => setArgRegister fuelI g1 i index v

/-- The UndoUse loop of Inst::ClearArgs over the indexed argument
values. -/
def clearArgsLoop (fuelI : Nat) (i : Nat) :
    Graph → List (Nat × Value) → Except MErr Graph
  | g, [] => .ok g
  | g, (idx, v) :: rest =>
      match isImmediateF g fuelI v with
      | none => .error .fuelOut
      | some true => clearArgsLoop fuelI i g rest
      | some false =>
          match v.inst with
          | none => .error .assertFail
          | some p =>
              match removeUse g p i idx with
              | .error e => .error e
              | .ok g1 => clearArgsLoop fuelI i g1 rest

/-- Inst::ClearArgs: UndoUse every non-immediate argument (every pair of a
phi; all six slots of the fixed array, the slots past the arity being void
and hence skipped), then clear the phi vector or memset the array back to
void.  The unreachable union mismatch is a hard fault here. -/
def clearArgs (fuelI : Nat) (g : Graph) (i : Nat) : Except MErr Graph :=
  if (g i).op = .Phi then
    match (g i).store with
    | .phiArgs l =>
        match clearArgsLoop fuelI i g (l.enum.map (fun p => (p.1, p.2.2))) with
        | .error e => .error e
        | .ok g1 => .ok (setInst g1 i { g1 i with store := .phiArgs [] })
    | .args _ => .error .assertFail
  else
    match (g i).store with
    | .args a =>
        match clearArgsLoop fuelI i g a.enum with
        | .error e => .error e
        | .ok g1 =>
            .ok (setInst g1 i { g1 i with store := .args (List.replicate 6 .void) })
    | .phiArgs _ => .error .assertFail

/-- Inst::ReplaceOpcode: a transition into Phi is UNREACHABLE; a
transition out of a phi swaps the pair vector for a fresh six-slot
array. -/
def replaceOpcode (g : Graph) (i : Nat) (opcode : Opcode) : Except MErr Graph :=
  if opcode = .Phi then .error .assertFail
  else
    .ok (setInst g i
      (if (g i).op = .Phi then
        { g i with op := opcode, store := .args (List.replicate 6 .void) }
       else { g i with op := opcode }))

/-- Inst::Invalidate: ClearArgs, ASSERT the user list is empty, then
become Void. -/
def invalidate (fuelI : Nat) (g : Graph) (i : Nat) : Except MErr Graph :=
  match clearArgs fuelI g i with
  | .error e => .error e
  | .ok g1 =>
      if (g1 i).users.list.isEmpty then replaceOpcode g1 i .Void
      else .error .assertFail

/-- The operand positions UseIterator decodes from one node's mask, in
ascending countr_zero order.  The iterator assumes fewer than 31 operands
(its increment shifts 1 << (bitmask_pos + 1)), so bits from position 31
up are outside its supported range and are not decoded here. -/
def bitsOf (mask : Nat) : List Nat :=
  (List.range 31).filter (fun b => mask.testBit b)

/-- The (user, operand) pairs Inst::Uses() enumerates: nodes in list
order, the operand bits of each node's mask in ascending order. -/
def usesOf (l : List UserNode) : List (Nat × Nat) :=
  l.flatMap (fun n => (bitsOf n.operand_mask).map (fun b => (n.user, b)))

/-- The rewiring loop of Inst::ReplaceUsesWith over the snapshot of the
use list: DEBUG_ASSERT that the user's argument at that position still
points back at this instruction (Arg(operand).Inst() == this, whose own
DEBUG_ASSERT also demands a pointer-typed value), then
user->SetArg(operand, replacement). -/
def replaceUsesLoop (fuelI : Nat) (x : Nat) (r : Value) :
    Graph → List (Nat × Nat) → Except MErr Graph
  | g, [] => .ok g
  | g, (u, opnd) :: rest =>
      if (argOf (g u) opnd).inst = some x then
        match setArg fuelI g u opnd r with
        | .error e => .error e
        | .ok g1 => replaceUsesLoop fuelI x r g1 rest
      else .error .assertFail

/-- Inst::ReplaceUsesWith: iterate over a copy of the use list (SetArg
mutates the live one) rewiring every user to the replacement, Invalidate
this instruction, and when preserve is requested become
Identity(replacement) via ReplaceOpcode + SetArg(0, replacement). -/
def replaceUsesWith (fuelI : Nat) (g : Graph) (x : Nat) (r : Value)
    (preserve : Bool) : Except MErr Graph :=
  match replaceUsesLoop fuelI x r g (usesOf (g x).users.list) with
  | .error e => .error e
  | .ok g1 =>
      match invalidate fuelI g1 x with
      | .error e => .error e
      | .ok g2 =>
          if preserve then
            match replaceOpcode g2 x .Identity with
            | .error e => .error e
            | .ok g3 => setArg fuelI g3 x 0 r
          else .ok g2

/-- How many nodes of a user list belong to the given user. -/
def countUser (l : List UserNode) (u : Nat) : Nat :=
  (l.filter (fun n => n.user == u)).length

/-- Does some node of the user list register operand bit b for user u? -/
def userBit (l : List UserNode) (u b : Nat) : Bool :=
  l.any (fun n => n.user == u && n.operand_mask.testBit b)

/-- Union and capacity well-formedness of one instruction: the active
union member matches the opcode and the fixed array has its six slots. -/
def storeWF (inst : Inst) : Prop :=
  match inst.store with
  | .args a => a.length = 6 ∧ inst.op ≠ .Phi
  | .phiArgs _ => inst.op = .Phi

/-- A two-instruction graph: instruction 0 produces a value that
instruction 1 consumes as its first argument, with the use registered as
(user 1, bit 0); every other id is a fresh Void instruction. -/
def sampleGraph : Graph := fun n =>
  if n = 0 then
    ⟨.IAdd32, 0, .args [.immU32 1, .immU32 2, .void, .void, .void, .void],
     ⟨[⟨1, 1⟩], 1⟩⟩
  else if n = 1 then
    ⟨.IAdd32, 0, .args [.instRef 0, .immU32 3, .void, .void, .void, .void],
     ⟨[], 0⟩⟩
  else mkInst .Void 0

end Micro

namespace Hull

/-- C1 counterexample.  An address whose linearized terms carry two
"number of patches" factors and one "patch-constant base" factor does not
classify as the per-patch-constant region with region counter 3: the
discarded filter removes nothing, so the region counter reaches 4 (1+1+2)
and FindIndexInfo aborts on the offset-accumulation assertion when it meets
the retained attribute factor, which is not a u32 immediate. -/
theorem findIndexInfo_two_numpatches_patchconst_aborts :
    findIndexInfo false [.immU32 0, .immU32 0, .immU32 0]
        [[.attr .TcsNumPatches], [.attr .TcsNumPatches], [.attr .TcsPatchConstBase]]
      = Except.error .offsetFactorNotU32 ∧
    regionScan
        [[.attr .TcsNumPatches], [.attr .TcsNumPatches], [.attr .TcsPatchConstBase]] 0
      = Except.ok 4 :=
  ⟨rfl, rfl⟩

/-- In non-passthrough mode a successful classification is per-patch-constant
exactly at region count 2 (0 is input-control-point, 1 output-control-point,
3 and above the asserted failure). -/
theorem classifyRegion_nonpass_patchconst (rc : Nat) (region : AttributeRegion)
    (hc : classifyRegion false rc = Except.ok region) :
    (region = .PatchConst ↔ rc = 2) := by
  match rc with
  | 0 =>
    rw [show classifyRegion false 0 = Except.ok .InputCP from rfl] at hc
    injection hc with h
    subst h
    decide
  | 1 =>
    rw [show classifyRegion false 1 = Except.ok .OutputCP from rfl] at hc
    injection hc with h
    subst h
    decide
  | 2 =>
    rw [show classifyRegion false 2 = Except.ok .PatchConst from rfl] at hc
    injection hc with h
    subst h
    decide
  | n + 3 =>
    unfold classifyRegion at hc
    rw [if_neg (by omega)] at hc
    simp only [Bool.false_eq_true, if_false] at hc
    rw [if_neg (by omega)] at hc
    cases hc

/-- C1 (amended).  In non-passthrough mode a successful FindIndexInfo run
classifies the access as per-patch-constant exactly when the accumulated
region counter is 2; a counter of 3 or more is the asserted hard failure,
never a clamped per-patch-constant classification. -/
theorem findIndexInfo_patchconst_iff_count_two
    (terms : List Value) (lps : List (List Value)) (info : RingAddressInfo) (rc : Nat)
    (hok : findIndexInfo false terms lps = Except.ok info)
    (hrc : regionScan lps 0 = Except.ok rc) :
    (info.region = .PatchConst ↔ rc = 2) := by
  unfold findIndexInfo at hok
  split at hok
  · cases hok
  · rename_i rc2 hrc2
    rw [hrc] at hrc2
    injection hrc2 with hrc3
    subst hrc3
    split at hok
    · cases hok
    · rename_i r hg
      split at hok
      · cases hok
      · rename_i region hc
        injection hok with h
        subst h
        exact classifyRegion_nonpass_patchconst _ region hc

/-- C1 witness: a concrete address with one patch-constant-base factor in
the dynamic-index term accumulates a region counter of 2 and classifies as
per-patch-constant. -/
theorem findIndexInfo_patchconst_iff_count_two_witness :
    ((⟨.PatchConst, 0, .immU32 7⟩ : RingAddressInfo).region = .PatchConst ↔ (2 : Nat) = 2) :=
  findIndexInfo_patchconst_iff_count_two [.immU32 7]
    [[.attr .TcsPatchConstBase, .inst .GetAttributeU32 [.attr .InvocationId, .immU32 0]]]
    ⟨.PatchConst, 0, .immU32 7⟩ 2 rfl rfl

/-- No instruction of a program with hasSharedInst false carries a
shared-memory opcode. -/
theorem hasSharedInst_false_no_shared (p : Program) (hp : hasSharedInst p = false) :
    ∀ b ∈ p, ∀ i ∈ b, isSharedMemOp i.op = false := by
  intro b hb i hi
  cases hx : isSharedMemOp i.op
  · rfl
  · have hT : hasSharedInst p = true := by
      unfold hasSharedInst
      rw [List.any_eq_true]
      exact ⟨b, hb, by rw [List.any_eq_true]; exact ⟨i, hi, hx⟩⟩
    rw [hp] at hT
    cases hT

/-- C2.  Whenever HullShaderTransform returns a program, that program holds
no shared-memory load/store instruction; and whenever a shared-memory
instruction survives the rewrite loop, the pass aborts with the
completeness-scan hard failure instead of returning a program. -/
theorem hullShaderTransform_no_shared_survivor :
    (∀ (fuel : Nat) (pt : Bool) (p q : Program), hullShaderTransform fuel pt p = Except.ok q →
        ∀ b ∈ q, ∀ i ∈ b, isSharedMemOp i.op = false) ∧
    (∀ (fuel : Nat) (pt : Bool) (p q : Program),
        rewritePass fuel pt (normalizePass p) = Except.ok q →
        hasSharedInst q = true →
        hullShaderTransform fuel pt p = Except.error .remainingSharedInst) := by
  constructor
  · intro fuel pt p q h
    unfold hullShaderTransform at h
    split at h
    · cases h
    · rename_i p2 hp2
      split at h
      · cases h
      · rename_i u hfc
        injection h with h2
        subst h2
        unfold finalCheck at hfc
        by_cases hs : hasSharedInst p2 = true
        · rw [if_pos hs] at hfc; cases hfc
        · have hfalse : hasSharedInst p2 = false := by
            cases hx : hasSharedInst p2
            · rfl
            · exact absurd hx hs
          exact hasSharedInst_false_no_shared p2 hfalse
  · intro fuel pt p q h hshared
    unfold hullShaderTransform
    rw [h]
    show (match finalCheck q with
      | Except.error e => Except.error e
      | Except.ok _ => Except.ok q) = Except.error Err.remainingSharedInst
    rw [show finalCheck q = Except.error Err.remainingSharedInst from by
      unfold finalCheck; rw [if_pos hshared]]

/-- C2 witness: the transform of the empty program returns it (no
shared-memory instructions), and a program retaining a shared-memory load
makes the pass abort. -/
theorem hullShaderTransform_no_shared_survivor_witness :
    (∀ b ∈ ([[]] : Program), ∀ i ∈ b, isSharedMemOp i.op = false) ∧
    hullShaderTransform 8 false [[⟨.LoadSharedU32, defaultFlags, []⟩]]
      = Except.error .remainingSharedInst :=
  ⟨hullShaderTransform_no_shared_survivor.1 8 false [[]] [[]] rfl,
   hullShaderTransform_no_shared_survivor.2 8 false
     [[⟨.LoadSharedU32, defaultFlags, []⟩]] [[⟨.LoadSharedU32, defaultFlags, []⟩]] rfl rfl⟩

/-- C5.  A StoreBufferU32x2 marked globally-coherent with static instruction
offset 8, fed by a two-lane composite construct, rewrites into exactly two
per-patch tessellation-factor writes at factor indices 2 and 3
(inst_offset >> 2 and that plus one), each lane passed through the float
bit-pattern conversion, and the original store is invalidated to a Void
instruction. -/
theorem storeBuffer_u32x2_coherent_offset8_rewrite
    (fuel : Nat) (pt : Bool) (fl : BufferInstInfo) (h sa v0 v1 : Value)
    (hgc : fl.globally_coherent = true) (hoff : fl.inst_offset = 8) :
    rewriteInst fuel pt
        ⟨.StoreBufferU32x2, fl, [h, sa, .inst .CompositeConstructU32x2 [v0, v1]]⟩
      = Except.ok
          [⟨.SetPatch, defaultFlags, [.patch (.factor 2), getValue v0]⟩,
           ⟨.SetPatch, defaultFlags, [.patch (.factor 3), getValue v1]⟩,
           ⟨.Void, fl, []⟩] := by
  cases fl with
  | mk gc off =>
    simp only [BufferInstInfo.globally_coherent] at hgc
    simp only [BufferInstInfo.inst_offset] at hoff
    subst hgc
    subst hoff
    have hmap : rewriteInst fuel pt ⟨.StoreBufferU32x2, ⟨true, 8⟩,
        [h, sa, .inst .CompositeConstructU32x2 [v0, v1]]⟩
        = Except.ok ((List.range 2).map (fun i =>
            ⟨.SetPatch, defaultFlags,
             [.patch (.factor ((8 : Nat) >>> 2 + i)),
              getValue (List.getD [v0, v1] i .void)]⟩)
          ++ [⟨.Void, ⟨true, 8⟩, []⟩]) := rfl
    have hlist : ((List.range 2).map (fun i =>
            (⟨.SetPatch, defaultFlags,
             [.patch (.factor ((8 : Nat) >>> 2 + i)),
              getValue (List.getD [v0, v1] i .void)]⟩ : HInst))
          ++ [⟨.Void, ⟨true, 8⟩, []⟩])
        = [⟨.SetPatch, defaultFlags, [.patch (.factor 2), getValue v0]⟩,
           ⟨.SetPatch, defaultFlags, [.patch (.factor 3), getValue v1]⟩,
           ⟨.Void, ⟨true, 8⟩, []⟩] := rfl
    exact hmap.trans (congrArg Except.ok hlist)

/-- C5 witness at concrete lanes. -/
theorem storeBuffer_u32x2_coherent_offset8_rewrite_witness :
    rewriteInst 8 false ⟨.StoreBufferU32x2, ⟨true, 8⟩,
        [.void, .void, .inst .CompositeConstructU32x2 [.immU32 11, .immU32 22]]⟩
      = Except.ok
          [⟨.SetPatch, defaultFlags, [.patch (.factor 2), getValue (.immU32 11)]⟩,
           ⟨.SetPatch, defaultFlags, [.patch (.factor 3), getValue (.immU32 22)]⟩,
           ⟨.Void, ⟨true, 8⟩, []⟩] :=
  storeBuffer_u32x2_coherent_offset8_rewrite 8 false ⟨true, 8⟩ .void .void
    (.immU32 11) (.immU32 22) rfl rfl

/-- For shift amounts 1 through 31 the u32 factor 2 << (imm - 1) is exactly
2 ^ imm. -/
theorem shiftFactor_pow2 (imm : Nat) (h1 : 1 ≤ imm) (h2 : imm ≤ 31) :
    shiftFactor imm = Except.ok (2 ^ imm) := by
  have hmod : imm % U32Mod = imm := Nat.mod_eq_of_lt (by unfold U32Mod; omega)
  have hlt : 2 ^ imm < U32Mod := by
    have h32 : U32Mod = 2 ^ 32 := by norm_num [U32Mod]
    rw [h32]
    exact Nat.pow_lt_pow_right (by omega) (by omega)
  have hpow : 2 * 2 ^ (imm - 1) = 2 ^ imm := by
    conv_rhs => rw [show imm = (imm - 1) + 1 from by omega]
    rw [Nat.pow_succ]
    ring
  unfold shiftFactor
  rw [hmod]
  rw [if_neg (show ¬ imm = 0 from by omega)]
  rw [if_pos (show imm - 1 < 32 from by omega)]
  rw [hpow, Nat.mod_eq_of_lt hlt]

/-- C6 (amended).  For shift amounts 1 through 31 the factor
u32(2 << (imm - 1)) appended by the shift branch of the walk equals 2 ^ imm
without overflow, and the walk step appends exactly that factor to the
current term and descends into the shifted operand; at shift amount 0 the
u32 subtraction wraps and the shift count leaves the defined range (see the
counterexample), so the equivalence does not extend to every shift
amount. -/
theorem visit_shift_imm_pow2 (fuel : Nat) (s : WalkState) (a : Value) (imm : Nat)
    (h1 : 1 ≤ imm) (h2 : imm ≤ 31) :
    visitF (fuel + 1) s (.inst .ShiftLeftLogical32 [a, .immU32 imm])
      = visitF fuel (s.pushFactor (.immU32 (2 ^ imm))) a ∧ 2 ^ imm < U32Mod := by
  constructor
  · conv_lhs => rw [visitF]
    rw [visitStep]
    simp only [stripId, Value.isImmediate]
    rw [show (Value.immU32 imm).u32 = some imm from rfl]
    rw [if_pos trivial]
    show (match shiftFactor imm with
          | Except.error e => Except.error e
          | Except.ok f => visitF fuel (s.pushFactor (Value.immU32 f)) a)
        = visitF fuel (s.pushFactor (Value.immU32 (2 ^ imm))) a
    rw [shiftFactor_pow2 imm h1 h2]
  · have h32 : U32Mod = 2 ^ 32 := by norm_num [U32Mod]
    rw [h32]
    exact Nat.pow_lt_pow_right (by omega) (by omega)

/-- C6 witness at shift amount 4: the appended factor is 16 = 2 ^ 4. -/
theorem visit_shift_imm_pow2_witness :
    visitF 9 ⟨false, [.immU32 3], [[]]⟩
        (.inst .ShiftLeftLogical32 [.immU32 3, .immU32 4])
      = visitF 8 ((⟨false, [.immU32 3], [[]]⟩ : WalkState).pushFactor (.immU32 (2 ^ 4)))
          (.immU32 3) ∧ 2 ^ 4 < U32Mod :=
  visit_shift_imm_pow2 8 ⟨false, [.immU32 3], [[]]⟩ (.immU32 3) 4 (by omega) (by omega)

/-- C6 counterexample.  At shift amount 0 the factor is not 2 ^ 0 = 1: the
u32 subtraction 0 - 1 wraps to 0xFFFFFFFF, the shift count leaves the
defined range, and the walk aborts instead of appending a factor. -/
theorem visit_shift_zero_not_pow2 :
    visitF 8 ⟨false, [.immU32 9], [[]]⟩ (.inst .ShiftLeftLogical32 [.immU32 5, .immU32 0])
        = Except.error Err.shiftUB ∧
    shiftFactor 0 = Except.error Err.shiftUB :=
  ⟨rfl, rfl⟩

end Hull

namespace SPIRV

/-- C8.  For every stage and every usage info, DefinePushDataBlock declares
the same eight members in order: two 32-bit scalar step-rate registers at
byte offsets 0 and 4, two buffer-offset four-vectors at offsets 8 and 24,
and four user-data four-vectors at offsets 40, 56, 72 and 88. -/
theorem definePushDataBlock_fixed_layout :
    ∀ (stage : Stage) (info : Info),
      definePushDataBlock stage info =
        [⟨"sr0", .u32Vec 1, 0⟩, ⟨"sr1", .u32Vec 1, 4⟩,
         ⟨"buf_offsets0", .u32Vec 4, 8⟩, ⟨"buf_offsets1", .u32Vec 4, 24⟩,
         ⟨"ud_regs0", .u32Vec 4, 40⟩, ⟨"ud_regs1", .u32Vec 4, 56⟩,
         ⟨"ud_regs2", .u32Vec 4, 72⟩, ⟨"ud_regs3", .u32Vec 4, 88⟩] :=
  fun _ _ => rfl

/-- C9 counterexample.  With shared memory in use and a declared size of 0,
the declared element count is 512 (the 2_KB default divided into words), not
DivCeil(0, 4) = 0: the capacity is not the declared requirement rounded up
when the requirement is zero. -/
theorem defineSharedMemory_zero_size_cex :
    defineSharedMemory ⟨true⟩ 0 ≠ some (divCeil 0 4) ∧
    defineSharedMemory ⟨true⟩ 0 = some 512 := by
  constructor
  · intro h
    simp [defineSharedMemory, divCeil, DefaultSharedMemSize] at h
  · rfl

/-- C9 (amended).  A shared-memory block is declared exactly when the usage
info says shared memory is used; for a nonzero declared size the element
count is DivCeil(size, 4), and for a declared size of zero it is
DivCeil(2048, 4) from the default fallback. -/
theorem defineSharedMemory_rounds_up (info : Info) (sz : Nat) :
    ((defineSharedMemory info sz).isSome = true ↔ info.uses_shared = true) ∧
    (sz ≠ 0 → defineSharedMemory info sz =
        if info.uses_shared then some (divCeil sz 4) else none) ∧
    (defineSharedMemory info 0 =
        if info.uses_shared then some (divCeil DefaultSharedMemSize 4) else none) := by
  cases info with
  | mk us =>
    cases us with
    | false =>
      refine ⟨by simp [defineSharedMemory], fun hsz => ?_, by simp [defineSharedMemory]⟩
      simp [defineSharedMemory]
    | true =>
      refine ⟨by simp [defineSharedMemory], fun hsz => ?_, by simp [defineSharedMemory]⟩
      simp [defineSharedMemory, if_neg hsz]

/-- C9 witness at a nonzero size: 10 bytes round up to 3 words. -/
theorem defineSharedMemory_rounds_up_witness :
    defineSharedMemory ⟨true⟩ 10 =
      if (⟨true⟩ : Info).uses_shared then some (divCeil 10 4) else none :=
  (defineSharedMemory_rounds_up ⟨true⟩ 10).2.1 (by omega)

end SPIRV

namespace Micro

theorem setInst_self (g : Graph) (i : Nat) (inst : Inst) : setInst g i inst i = inst := by
  simp [setInst]

theorem setInst_ne (g : Graph) (i : Nat) (inst : Inst) (j : Nat) (h : j ≠ i) :
    setInst g i inst j = g j := by
  simp [setInst, h]

theorem isImmediateF_instRef_not_id (g : Graph) (fuelI i : Nat)
    (h : (g i).op ≠ .Identity) : isImmediateF g fuelI (.instRef i) = some false := by
  cases fuelI <;> simp [isImmediateF, h]

theorem modifyAt_length (f : α → α) (n : Nat) (l : List α) :
    (modifyAt f n l).length = l.length := by
  induction l generalizing n with
  | nil => cases n <;> rfl
  | cons x xs ih => cases n <;> simp [modifyAt, ih]

theorem modifyAt_getD_self (f : α → α) (n : Nat) (l : List α) (d : α)
    (h : n < l.length) : (modifyAt f n l).getD n d = f (l.getD n d) := by
  induction l generalizing n with
  | nil => simp at h
  | cons x xs ih =>
      cases n with
      | zero => simp [modifyAt]
      | succ m => simpa [modifyAt] using ih m (by simpa using h)

theorem modifyAt_getD_ne (f : α → α) (n m : Nat) (l : List α) (d : α)
    (h : m ≠ n) : (modifyAt f n l).getD m d = l.getD m d := by
  induction l generalizing n m with
  | nil => cases n <;> rfl
  | cons x xs ih =>
      cases n with
      | zero =>
          cases m with
          | zero => exact absurd rfl h
          | succ k => simp [modifyAt]
      | succ n2 =>
          cases m with
          | zero => simp [modifyAt]
          | succ k => simpa [modifyAt] using ih n2 k (by omega)

theorem writeArgInst_users (inst : Inst) (index : Nat) (v : Value) :
    (writeArgInst inst index v).users = inst.users := by
  unfold writeArgInst; split <;> rfl

theorem writeArgInst_op (inst : Inst) (index : Nat) (v : Value) :
    (writeArgInst inst index v).op = inst.op := by
  unfold writeArgInst; split <;> rfl

theorem writeArgInst_flags (inst : Inst) (index : Nat) (v : Value) :
    (writeArgInst inst index v).flags = inst.flags := by
  unfold writeArgInst; split <;> rfl

theorem argOf_eq_of (i1 i2 : Inst) (h1 : i1.op = i2.op) (h2 : i1.store = i2.store)
    (o : Nat) : argOf i1 o = argOf i2 o := by
  unfold argOf; rw [h1, h2]

theorem removeUse_cases (g : Graph) (used user opnd : Nat) (g' : Graph)
    (h : removeUse g used user opnd = .ok g') :
    ∃ l, removeUseList user opnd (g used).users.list = .ok l ∧
      g' = setInst g used { g used with users := ⟨l, (g used).users.num_uses - 1⟩ } := by
  unfold removeUse at h
  split at h
  · simp at h
  · rename_i l hl
    injection h with h
    exact ⟨l, hl, h.symm⟩

theorem addUse_cases (g : Graph) (used user opnd : Nat) (g' : Graph)
    (h : addUse g used user opnd = .ok g') :
    ∃ l, addUseList user opnd (g used).users.list = .ok l ∧
      g' = setInst g used { g used with users := ⟨l, (g used).users.num_uses + 1⟩ } := by
  unfold addUse at h
  split at h
  · simp at h
  · rename_i l hl
    injection h with h
    exact ⟨l, hl, h.symm⟩

theorem removeUse_shape (g : Graph) (used user opnd : Nat) (g' : Graph)
    (h : removeUse g used user opnd = .ok g') (j : Nat) :
    (g' j).op = (g j).op ∧ (g' j).store = (g j).store := by
  obtain ⟨l, _, rfl⟩ := removeUse_cases g used user opnd g' h
  by_cases hj : j = used
  · subst hj; rw [setInst_self]; exact ⟨rfl, rfl⟩
  · rw [setInst_ne _ _ _ _ hj]; exact ⟨rfl, rfl⟩

theorem addUse_shape (g : Graph) (used user opnd : Nat) (g' : Graph)
    (h : addUse g used user opnd = .ok g') (j : Nat) :
    (g' j).op = (g j).op ∧ (g' j).store = (g j).store := by
  obtain ⟨l, _, rfl⟩ := addUse_cases g used user opnd g' h
  by_cases hj : j = used
  · subst hj; rw [setInst_self]; exact ⟨rfl, rfl⟩
  · rw [setInst_ne _ _ _ _ hj]; exact ⟨rfl, rfl⟩

theorem removeUse_other (g : Graph) (used user opnd : Nat) (g' : Graph)
    (h : removeUse g used user opnd = .ok g') (j : Nat) (hj : j ≠ used) :
    g' j = g j := by
  obtain ⟨l, _, rfl⟩ := removeUse_cases g used user opnd g' h
  exact setInst_ne _ _ _ _ hj

theorem addUse_other (g : Graph) (used user opnd : Nat) (g' : Graph)
    (h : addUse g used user opnd = .ok g') (j : Nat) (hj : j ≠ used) :
    g' j = g j := by
  obtain ⟨l, _, rfl⟩ := addUse_cases g used user opnd g' h
  exact setInst_ne _ _ _ _ hj

theorem writeArg_users (g : Graph) (i index : Nat) (v : Value) (j : Nat) :
    ((writeArg g i index v) j).users = (g j).users := by
  unfold writeArg
  by_cases hj : j = i
  · subst hj; rw [setInst_self]; exact writeArgInst_users _ _ _
  · rw [setInst_ne _ _ _ _ hj]

theorem writeArg_op (g : Graph) (i index : Nat) (v : Value) (j : Nat) :
    ((writeArg g i index v) j).op = (g j).op := by
  unfold writeArg
  by_cases hj : j = i
  · subst hj; rw [setInst_self]; exact writeArgInst_op _ _ _
  · rw [setInst_ne _ _ _ _ hj]

theorem argOf_writeArgInst_self (inst : Inst) (index : Nat) (v : Value)
    (hwf : storeWF inst) (hidx : index < numArgs inst) :
    argOf (writeArgInst inst index v) index = v := by
  obtain ⟨op, fl, st, us⟩ := inst
  cases st with
  | args a =>
      obtain ⟨hlen, hop⟩ := hwf
      simp only [numArgs, if_neg hop] at hidx
      have hlt : index < a.length := by
        have := numArgsOf_le_six op
        omega
      simp only [writeArgInst, if_neg hop, argOf]
      simpa using modifyAt_getD_self (fun _ => v) index a .void hlt
  | phiArgs l =>
      have hop : op = .Phi := hwf
      subst hop
      simp only [numArgs, if_pos rfl] at hidx
      simp only [writeArgInst, if_pos rfl, argOf]
      simpa using congrArg Prod.snd
        (modifyAt_getD_self (fun p => (p.1, v)) index l (0, .void) hidx)

theorem argOf_writeArgInst_ne (inst : Inst) (index : Nat) (v : Value) (o : Nat)
    (ho : o ≠ index) : argOf (writeArgInst inst index v) o = argOf inst o := by
  obtain ⟨op, fl, st, us⟩ := inst
  by_cases hop : op = .Phi
  · subst hop
    cases st with
    | phiArgs l =>
        simp only [writeArgInst, if_pos rfl, argOf]
        simpa using congrArg Prod.snd
          (modifyAt_getD_ne (fun p => (p.1, v)) index o l (0, .void) ho)
    | args a => simp [writeArgInst, argOf]
  · cases st with
    | phiArgs l => simp [writeArgInst, if_neg hop, argOf]
    | args a =>
        simp only [writeArgInst, if_neg hop, argOf]
        simpa [hop] using modifyAt_getD_ne (fun _ => v) index o a .void ho

theorem writeArgInst_storeWF (inst : Inst) (index : Nat) (v : Value)
    (hwf : storeWF inst) : storeWF (writeArgInst inst index v) := by
  obtain ⟨op, fl, st, us⟩ := inst
  by_cases hop : op = .Phi
  · subst hop
    cases st with
    | phiArgs l => simp [writeArgInst, storeWF]
    | args a => exact absurd rfl hwf.2
  · cases st with
    | phiArgs l => exact absurd hwf hop
    | args a =>
        simp only [writeArgInst, if_neg hop, storeWF]
        exact ⟨by rw [modifyAt_length]; exact hwf.1, hwf.2⟩

theorem setArgRegister_cases (fuelI : Nat) (g : Graph) (i index : Nat) (v : Value)
    (g' : Graph) (h : setArgRegister fuelI g i index v = .ok g') :
    (isImmediateF g fuelI v = some true ∧ g' = writeArg g i index v) ∨
    (∃ p g1, isImmediateF g fuelI v = some false ∧ v.inst = some p ∧
      addUse g p i index = .ok g1 ∧ g' = writeArg g1 i index v) := by
  unfold setArgRegister at h
  split at h
  · simp at h
  · rename_i himm
    injection h with h
    exact .inl ⟨himm, h.symm⟩
  · rename_i himm
    split at h
    · simp at h
    · rename_i p hp
      split at h
      · simp at h
      · rename_i g1 hg1
        injection h with h
        exact .inr ⟨p, g1, himm, hp, hg1, h.symm⟩

theorem setArg_cases (fuelI : Nat) (g : Graph) (i index : Nat) (v : Value)
    (g' : Graph) (h : setArg fuelI g i index v = .ok g') :
    ¬ numArgs (g i) ≤ index ∧
    ((isImmediateF g fuelI (argOf (g i) index) = some true ∧
        setArgRegister fuelI g i index v = .ok g') ∨
     (∃ q g1, isImmediateF g fuelI (argOf (g i) index) = some false ∧
        (argOf (g i) index).inst = some q ∧ removeUse g q i index = .ok g1 ∧
        setArgRegister fuelI g1 i index v = .ok g')) := by
  unfold setArg at h
  split at h
  · simp at h
  · rename_i hb
    refine ⟨hb, ?_⟩
    split at h
    · simp at h
    · rename_i himm
      exact .inl ⟨himm, h⟩
    · rename_i himm
      split at h
      · simp at h
      · rename_i q hq
        split at h
        · simp at h
        · rename_i g1 hg1
          exact .inr ⟨q, g1, himm, hq, hg1, h⟩

theorem setArg_op (fuelI : Nat) (g : Graph) (i index : Nat) (v : Value)
    (g' : Graph) (h : setArg fuelI g i index v = .ok g') (j : Nat) :
    (g' j).op = (g j).op := by
  obtain ⟨-, hc⟩ := setArg_cases fuelI g i index v g' h
  rcases hc with ⟨-, hr⟩ | ⟨q, g1, -, -, hrm, hr⟩
  · rcases setArgRegister_cases fuelI g i index v g' hr with ⟨-, rfl⟩ |
      ⟨p, g2, -, -, hadd, rfl⟩
    · exact writeArg_op g i index v j
    · rw [writeArg_op g2 i index v j, (addUse_shape g p i index g2 hadd j).1]
  · rcases setArgRegister_cases fuelI g1 i index v g' hr with ⟨-, rfl⟩ |
      ⟨p, g2, -, -, hadd, rfl⟩
    · rw [writeArg_op g1 i index v j, (removeUse_shape g q i index g1 hrm j).1]
    · rw [writeArg_op g2 i index v j, (addUse_shape g1 p i index g2 hadd j).1,
        (removeUse_shape g q i index g1 hrm j).1]

theorem setArg_store_of_write (fuelI : Nat) (g : Graph) (i index : Nat) (v : Value)
    (g' : Graph) (h : setArg fuelI g i index v = .ok g') :
    ∃ gm : Graph, g' = writeArg gm i index v ∧
      (∀ j, (gm j).op = (g j).op ∧ (gm j).store = (g j).store) ∧
      (∀ j, (gm j).users = (g' j).users) := by
  obtain ⟨-, hc⟩ := setArg_cases fuelI g i index v g' h
  rcases hc with ⟨-, hr⟩ | ⟨q, g1, -, -, hrm, hr⟩
  · rcases setArgRegister_cases fuelI g i index v g' hr with ⟨-, rfl⟩ |
      ⟨p, g2, -, -, hadd, rfl⟩
    · exact ⟨g, rfl, fun j => ⟨rfl, rfl⟩, fun j => (writeArg_users g i index v j).symm⟩
    · exact ⟨g2, rfl, fun j => addUse_shape g p i index g2 hadd j,
        fun j => (writeArg_users g2 i index v j).symm⟩
  · rcases setArgRegister_cases fuelI g1 i index v g' hr with ⟨-, rfl⟩ |
      ⟨p, g2, -, -, hadd, rfl⟩
    · exact ⟨g1, rfl, fun j => removeUse_shape g q i index g1 hrm j,
        fun j => (writeArg_users g1 i index v j).symm⟩
    · refine ⟨g2, rfl, fun j => ?_, fun j => (writeArg_users g2 i index v j).symm⟩
      obtain ⟨h1, h2⟩ := removeUse_shape g q i index g1 hrm j
      obtain ⟨h3, h4⟩ := addUse_shape g1 p i index g2 hadd j
      exact ⟨h3.trans h1, h4.trans h2⟩

theorem setArg_writes (fuelI : Nat) (g : Graph) (i index : Nat) (v : Value)
    (g' : Graph) (h : setArg fuelI g i index v = .ok g') (hwf : storeWF (g i)) :
    argOf (g' i) index = v := by
  obtain ⟨hb, -⟩ := setArg_cases fuelI g i index v g' h
  obtain ⟨gm, rfl, hshape, -⟩ := setArg_store_of_write fuelI g i index v g' h
  have hwfm : storeWF (gm i) := by
    have h1 := (hshape i).1
    have h2 := (hshape i).2
    unfold storeWF at hwf ⊢
    rw [h1, h2]
    exact hwf
  have hnum : numArgs (gm i) = numArgs (g i) := by
    unfold numArgs; rw [(hshape i).1, (hshape i).2]
  unfold writeArg
  rw [setInst_self]
  exact argOf_writeArgInst_self (gm i) index v hwfm (by omega)

theorem setArg_argOf_ne (fuelI : Nat) (g : Graph) (i index : Nat) (v : Value)
    (g' : Graph) (h : setArg fuelI g i index v = .ok g') (j o : Nat)
    (hne : ¬ (j = i ∧ o = index)) : argOf (g' j) o = argOf (g j) o := by
  obtain ⟨gm, rfl, hshape, -⟩ := setArg_store_of_write fuelI g i index v g' h
  have hgm : argOf (gm j) o = argOf (g j) o :=
    argOf_eq_of _ _ (hshape j).1 (hshape j).2 o
  by_cases hj : j = i
  · subst hj
    have ho : o ≠ index := fun hh => hne ⟨rfl, hh⟩
    unfold writeArg
    rw [setInst_self]
    rw [argOf_writeArgInst_ne (gm j) index v o ho]
    exact hgm
  · unfold writeArg
    rw [setInst_ne _ _ _ _ hj]
    exact hgm

theorem countUser_cons (n : UserNode) (l : List UserNode) (u : Nat) :
    countUser (n :: l) u = (if n.user == u then 1 else 0) + countUser l u := by
  by_cases h : (n.user == u) = true
  · simp [countUser, List.filter_cons, h]
    omega
  · simp [countUser, List.filter_cons, h]

theorem countUser_zero_userBit (l : List UserNode) (u b : Nat)
    (h : countUser l u = 0) : userBit l u b = false := by
  induction l with
  | nil => rfl
  | cons n rest ih =>
      rw [countUser_cons] at h
      by_cases hn : (n.user == u) = true
      · rw [if_pos hn] at h; omega
      · rw [if_neg hn] at h
        simp only [userBit, List.any_cons, Bool.or_eq_false_iff]
        exact ⟨by simp [hn], ih (by omega)⟩

theorem updateFirst_find (p : α → Bool) (f : α → α) (l : List α) (x : α)
    (h : l.find? p = some x) :
    ∃ l₁ l₂, l = l₁ ++ x :: l₂ ∧ (∀ y ∈ l₁, p y = false) ∧
      updateFirst p f l = l₁ ++ f x :: l₂ := by
  induction l with
  | nil => simp at h
  | cons a rest ih =>
      by_cases ha : p a = true
      · rw [List.find?_cons_of_pos _ ha] at h
        injection h with h
        subst h
        exact ⟨[], rest, rfl, by simp, by simp [updateFirst, ha]⟩
      · rw [List.find?_cons_of_neg _ (by simpa using ha)] at h
        obtain ⟨l₁, l₂, hsplit, hfail, hupd⟩ := ih h
        refine ⟨a :: l₁, l₂, by rw [hsplit]; rfl, ?_, ?_⟩
        · intro y hy
          rcases List.mem_cons.1 hy with rfl | hy2
          · simpa using ha
          · exact hfail y hy2
        · simp [updateFirst, ha, hupd]

theorem countUser_append (l₁ l₂ : List UserNode) (u : Nat) :
    countUser (l₁ ++ l₂) u = countUser l₁ u + countUser l₂ u := by
  simp [countUser, List.filter_append]

theorem userBit_append (l₁ l₂ : List UserNode) (u b : Nat) :
    userBit (l₁ ++ l₂) u b = (userBit l₁ u b || userBit l₂ u b) := by
  simp [userBit, List.any_append]

theorem countUser_eq_zero_of_none (l : List UserNode) (u : Nat)
    (h : ∀ y ∈ l, (fun n => n.user == u) y = false) : countUser l u = 0 := by
  unfold countUser
  rw [List.filter_eq_nil.2 (fun a ha => by simp [h a ha])]
  rfl

theorem addUseList_post (user opnd : Nat) (l l' : List UserNode)
    (h : addUseList user opnd l = .ok l') (hc : countUser l user ≤ 1) :
    countUser l' user = 1 ∧ userBit l' user opnd = true := by
  unfold addUseList at h
  split at h
  · rename_i hlt
    split at h
    · rename_i hnone
      injection h with h
      subst h
      have h0 : countUser l user = 0 :=
        countUser_eq_zero_of_none l user (by
          intro y hy
          have := List.find?_eq_none.1 hnone y hy
          simpa using this)
      constructor
      · rw [countUser_cons, h0]; simp
      · simp [userBit, Nat.testBit_two_pow_self]
    · rename_i n hfind
      split at h
      · injection h with h
        subst h
        obtain ⟨l₁, l₂, hsplit, hfail, hupd⟩ :=
          updateFirst_find (fun n => n.user == user)
            (fun m => ⟨m.user, m.operand_mask ||| 2 ^ opnd⟩) l n hfind
        have hn : (n.user == user) = true := by
          have := List.find?_some hfind
          simpa using this
        have hz1 : countUser l₁ user = 0 := countUser_eq_zero_of_none l₁ user hfail
        have hz2 : countUser l₂ user = 0 := by
          rw [hsplit, countUser_append, countUser_cons, hz1, if_pos hn] at hc
          omega
        rw [hupd]
        constructor
        · rw [countUser_append, countUser_cons, hz1, hz2]
          simp [hn]
        · rw [userBit_append]
          simp only [Bool.or_eq_true]
          refine .inr ?_
          simp only [userBit, List.any_cons, Bool.or_eq_true]
          refine .inl ?_
          simp [hn, Nat.testBit_lor, Nat.testBit_two_pow_self]
      · simp at h
  · simp at h

theorem removeUseList_count (user opnd : Nat) (l l' : List UserNode)
    (h : removeUseList user opnd l = .ok l') (hc : countUser l user ≤ 1) :
    countUser l' user ≤ 1 := by
  induction l generalizing l' with
  | nil => simp [removeUseList] at h
  | cons n rest ih =>
      unfold removeUseList at h
      split at h
      · rename_i hn
        rw [countUser_cons, if_pos hn] at hc
        have hz : countUser rest user = 0 := by omega
        split at h
        · split at h
          · injection h with h
            subst h
            omega
          · injection h with h
            subst h
            rw [countUser_cons, hz]
            simp [hn]
        · simp at h
      · rename_i hn
        rw [countUser_cons, if_neg hn] at hc
        split at h
        · rename_i rest2 hrest
          injection h with h
          subst h
          have h2 := ih rest2 hrest (by omega)
          rw [countUser_cons, if_neg hn]
          omega
        · simp at h

theorem testBit_clear_bit (m opnd : Nat) (hb : opnd < 32) :
    (m &&& (2 ^ opnd ^^^ (2 ^ 32 - 1))).testBit opnd = false := by
  rw [Nat.testBit_and, Nat.testBit_xor, Nat.testBit_two_pow_self,
    Nat.testBit_two_pow_sub_one]
  simp [hb]

theorem removeUseList_clears (user opnd : Nat) (l l' : List UserNode)
    (h : removeUseList user opnd l = .ok l') (hc : countUser l user ≤ 1)
    (hb : opnd < 32) : userBit l' user opnd = false := by
  induction l generalizing l' with
  | nil => simp [removeUseList] at h
  | cons n rest ih =>
      unfold removeUseList at h
      split at h
      · rename_i hn
        rw [countUser_cons, if_pos hn] at hc
        have hz : countUser rest user = 0 := by omega
        split at h
        · split at h
          · injection h with h
            subst h
            exact countUser_zero_userBit rest user opnd hz
          · injection h with h
            subst h
            simp only [userBit, List.any_cons, Bool.or_eq_false_iff]
            refine ⟨?_, countUser_zero_userBit rest user opnd hz⟩
            simp only [Bool.and_eq_false_iff]
            exact .inr (testBit_clear_bit n.operand_mask opnd hb)
        · simp at h
      · rename_i hn
        rw [countUser_cons, if_neg hn] at hc
        split at h
        · rename_i rest2 hrest
          injection h with h
          subst h
          simp only [userBit, List.any_cons, Bool.or_eq_false_iff]
          exact ⟨by simp [hn], ih rest2 hrest (by omega)⟩
        · simp at h

theorem addUseList_no_oor (user opnd : Nat) (l : List UserNode) :
    addUseList user opnd l ≠ .error .outOfRange := by
  unfold addUseList
  split
  · split
    · simp
    · split <;> simp
  · simp

theorem removeUseList_no_oor (user opnd : Nat) (l : List UserNode) :
    removeUseList user opnd l ≠ .error .outOfRange := by
  induction l with
  | nil => simp [removeUseList]
  | cons n rest ih =>
      unfold removeUseList
      split
      · split
        · split <;> simp
        · simp
      · split
        · simp
        · rename_i e he
          intro hcontra
          injection hcontra with hcontra
          subst hcontra
          exact ih he

theorem addUse_no_oor (g : Graph) (used user opnd : Nat) :
    addUse g used user opnd ≠ .error .outOfRange := by
  unfold addUse
  split
  · rename_i e he
    intro hcontra
    injection hcontra with hcontra
    subst hcontra
    exact addUseList_no_oor user opnd _ he
  · simp

theorem removeUse_no_oor (g : Graph) (used user opnd : Nat) :
    removeUse g used user opnd ≠ .error .outOfRange := by
  unfold removeUse
  split
  · rename_i e he
    intro hcontra
    injection hcontra with hcontra
    subst hcontra
    exact removeUseList_no_oor user opnd _ he
  · simp

theorem setArgRegister_no_oor (fuelI : Nat) (g : Graph) (i index : Nat)
    (v : Value) : setArgRegister fuelI g i index v ≠ .error .outOfRange := by
  unfold setArgRegister
  split
  · simp
  · simp
  · split
    · simp
    · split
      · rename_i e he
        intro hcontra
        injection hcontra with hcontra
        subst hcontra
        exact addUse_no_oor g _ i index he
      · simp

theorem updateFirst_mem (p : α → Bool) (f : α → α) (l : List α) (y : α)
    (hy : y ∈ updateFirst p f l) : y ∈ l ∨ ∃ x ∈ l, y = f x := by
  induction l with
  | nil => simp [updateFirst] at hy
  | cons a rest ih =>
      unfold updateFirst at hy
      split at hy
      · rcases List.mem_cons.1 hy with rfl | hy2
        · exact .inr ⟨a, List.mem_cons_self a rest, rfl⟩
        · exact .inl (List.mem_cons_of_mem a hy2)
      · rcases List.mem_cons.1 hy with rfl | hy2
        · exact .inl (List.mem_cons_self y rest)
        · rcases ih hy2 with h1 | ⟨x, hx, hfx⟩
          · exact .inl (List.mem_cons_of_mem a h1)
          · exact .inr ⟨x, List.mem_cons_of_mem a hx, hfx⟩

theorem bitsOf_two_pow (k : Nat) (hk : k < 31) : bitsOf (2 ^ k) = [k] := by
  unfold bitsOf
  have hall : ∀ n : Nat,
      (List.range n).filter (fun b => (2 ^ k).testBit b) =
        if k < n then [k] else [] := by
    intro n
    induction n with
    | zero => simp
    | succ m ih =>
        rw [List.range_succ, List.filter_append, ih]
        by_cases h : k < m
        · rw [if_pos h, if_pos (Nat.lt_succ_of_lt h)]
          simp [Nat.testBit_two_pow_of_ne (Nat.ne_of_lt h)]
        · rw [if_neg h]
          by_cases hk2 : k = m
          · subst hk2
            rw [if_pos (Nat.lt_succ_self k)]
            simp [Nat.testBit_two_pow_self]
          · rw [if_neg (by omega : ¬ k < m + 1)]
            simp [Nat.testBit_two_pow_of_ne hk2]
  rw [hall 31, if_pos hk]

theorem setArg_storeWF (fuelI : Nat) (g : Graph) (i index : Nat) (v : Value)
    (g' : Graph) (h : setArg fuelI g i index v = .ok g') (j : Nat)
    (hwf : storeWF (g j)) : storeWF (g' j) := by
  obtain ⟨gm, rfl, hshape, -⟩ := setArg_store_of_write fuelI g i index v g' h
  have hwfm : storeWF (gm j) := by
    unfold storeWF at hwf ⊢
    rw [(hshape j).1, (hshape j).2]
    exact hwf
  by_cases hj : j = i
  · subst hj
    unfold writeArg
    rw [setInst_self]
    exact writeArgInst_storeWF _ _ _ hwfm
  · unfold writeArg
    rw [setInst_ne _ _ _ _ hj]
    exact hwfm

/-- C7: Inst::SetArg fails with the out-of-range error exactly when the
index reaches the argument count (the opcode arity for a non-phi, the
current phi operand count for a phi).  The bounds throw precedes every
mutation in the source, and accordingly the model returns the error
before any graph update is constructed: no updated graph is ever produced
for such an index (second conjunct), so arguments and user lists are
untouched. -/
theorem setArg_out_of_range_check :
    (∀ (fuelI : Nat) (g : Graph) (i index : Nat) (v : Value),
        setArg fuelI g i index v = .error .outOfRange ↔ numArgs (g i) ≤ index) ∧
    (∀ (fuelI : Nat) (g : Graph) (i index : Nat) (v : Value) (g' : Graph),
        numArgs (g i) ≤ index → setArg fuelI g i index v ≠ .ok g') := by
  have key : ∀ (fuelI : Nat) (g : Graph) (i index : Nat) (v : Value),
      setArg fuelI g i index v = .error .outOfRange ↔ numArgs (g i) ≤ index := by
    intro fuelI g i index v
    constructor
    · intro h
      by_contra hb
      unfold setArg at h
      rw [if_neg hb] at h
      split at h
      · simp at h
      · exact setArgRegister_no_oor _ _ _ _ _ h
      · split at h
        · simp at h
        · split at h
          · rename_i e he
            injection h with h
            subst h
            exact removeUse_no_oor _ _ _ _ he
          · exact setArgRegister_no_oor _ _ _ _ _ h
    · intro h
      unfold setArg
      rw [if_pos h]
  refine ⟨key, ?_⟩
  intro fuelI g i index v g' h hcontra
  rw [(key fuelI g i index v).2 h] at hcontra
  simp at hcontra

/-- C7 witness: on the sample graph, index 5 against the two-argument
IAdd32 instruction 1 is out of range. -/
theorem setArg_out_of_range_check_witness :
    setArg 1 sampleGraph 1 5 .void = Except.error .outOfRange ↔
      numArgs (sampleGraph 1) ≤ 5 :=
  setArg_out_of_range_check.1 1 sampleGraph 1 5 .void

/-- C10: every operand position in the use/def bookkeeping is strictly
below 31.  AddUse rejects positions 31 and up (the DEBUG_ASSERT), a
successful AddUse implies the bound; a user absent from the list gets a
fresh front node whose mask is the single bit 2 ^ operand and the use
iterator decodes exactly [(user, operand)] from that node; masks stay
below 2 ^ 31 across AddUse; and every position the iterator decodes is
below 31 (positions beyond are outside the supported range). -/
theorem addUse_operand_bits :
    (∀ (g : Graph) (used user operand : Nat), 31 ≤ operand →
        addUse g used user operand = .error .assertFail) ∧
    (∀ (g : Graph) (used user operand : Nat) (g' : Graph),
        addUse g used user operand = .ok g' → operand < 31) ∧
    (∀ (g : Graph) (used user operand : Nat) (g' : Graph),
        addUse g used user operand = .ok g' →
        (g used).users.list.find? (fun n => n.user == user) = none →
        (g' used).users.list = ⟨user, 2 ^ operand⟩ :: (g used).users.list ∧
          usesOf [⟨user, 2 ^ operand⟩] = [(user, operand)]) ∧
    (∀ (g : Graph) (used user operand : Nat) (g' : Graph),
        addUse g used user operand = .ok g' →
        (∀ n ∈ (g used).users.list, n.operand_mask < 2 ^ 31) →
        ∀ n ∈ (g' used).users.list, n.operand_mask < 2 ^ 31) ∧
    (∀ (mask b : Nat), b ∈ bitsOf mask → b < 31) := by
  have hbound : ∀ (g : Graph) (used user operand : Nat) (g' : Graph),
      addUse g used user operand = .ok g' → operand < 31 := by
    intro g used user opnd g' h
    obtain ⟨l, hl, -⟩ := addUse_cases g used user opnd g' h
    unfold addUseList at hl
    split at hl
    · assumption
    · simp at hl
  refine ⟨?_, hbound, ?_, ?_, ?_⟩
  · intro g used user opnd hge
    unfold addUse addUseList
    rw [if_neg (by omega : ¬ opnd < 31)]
  · intro g used user opnd g' h hfind
    have hlt := hbound g used user opnd g' h
    obtain ⟨l, hl, rfl⟩ := addUse_cases g used user opnd g' h
    unfold addUseList at hl
    rw [if_pos hlt, hfind] at hl
    injection hl with hl
    subst hl
    rw [setInst_self]
    refine ⟨rfl, ?_⟩
    simp [usesOf, bitsOf_two_pow opnd hlt]
  · intro g used user opnd g' h hmask
    have hlt := hbound g used user opnd g' h
    have hpow : (2 : Nat) ^ opnd < 2 ^ 31 :=
      Nat.pow_lt_pow_right (by omega) hlt
    obtain ⟨l, hl, rfl⟩ := addUse_cases g used user opnd g' h
    unfold addUseList at hl
    rw [if_pos hlt] at hl
    rw [setInst_self]
    intro n hn
    split at hl
    · injection hl with hl
      subst hl
      rcases List.mem_cons.1 hn with rfl | hn2
      · exact hpow
      · exact hmask n hn2
    · rename_i m hfind
      split at hl
      · injection hl with hl
        subst hl
        rcases updateFirst_mem _ _ _ n hn with hn2 | ⟨x, hx, rfl⟩
        · exact hmask n hn2
        · exact Nat.or_lt_two_pow (hmask x hx) hpow
      · simp at hl
  · intro mask b hb
    simpa [bitsOf, List.mem_filter, List.mem_range] using
      (List.mem_filter.1 hb).1

/-- C10 witness: registering user 2 at operand 3 on the sample producer
prepends the single-bit node mask 8, and the iterator decodes exactly
position 3 from it. -/
theorem addUse_operand_bits_witness :
    ((addUse sampleGraph 0 2 3).map (fun g2 => (g2 0).users.list)
        = .ok [⟨2, 8⟩, ⟨1, 1⟩]) ∧
    usesOf [⟨2, 2 ^ 3⟩] = [(2, 3)] := by
  obtain ⟨g2, hg⟩ : ∃ gg, addUse sampleGraph 0 2 3 = .ok gg := ⟨_, rfl⟩
  have h := addUse_operand_bits.2.2.1 sampleGraph 0 2 3 g2 hg (by rfl)
  constructor
  · rw [hg]
    simp only [Except.map]
    rw [h.1]
    rfl
  · exact h.2

/-- C3 counterexample: re-setting an argument to a value with the same
producer as the old argument.  The old argument of instruction 1 at index
0 is non-immediate (produced by instruction 0), yet after
SetArg(0, Value(instruction 0)) the producer's user-list entry for
(user 1, bit 0) is present again - RemoveUse erases it and the subsequent
AddUse re-registers it - contradicting the claim that after SetArg the
previous non-immediate argument's producer no longer has bit i set. -/
theorem setArg_same_producer_bit_kept :
    isImmediateF sampleGraph 1 (argOf (sampleGraph 1) 0) = some false ∧
    (argOf (sampleGraph 1) 0).inst = some 0 ∧
    (setArg 1 sampleGraph 1 0 (.instRef 0)).map
        (fun g2 => userBit ((g2 0).users.list) 1 0) = .ok true :=
  ⟨rfl, rfl, rfl⟩

/-- C3 (amended): after a successful SetArg(i, v) on instruction I,
(1) Arg(i) = v (given the union/capacity invariant of I);
(2) when v is produced by a non-Identity instruction P whose user list
holds at most one node for I, P's list afterwards holds exactly one node
for I and it has bit i set;
(3) when i is inside the bookkeeping's supported operand range (i < 31,
the AddUse bound), the previous argument at i was produced by a
non-Identity instruction Q whose user list holds at most one node for I,
and the new value's direct producer is not Q, then Q's list no longer has
bit i set for I (the node is erased when its mask reaches zero).  If the
new value has the same producer, the bit is removed and immediately
re-registered, so it remains set (see the counterexample). -/
theorem setArg_rewires_use_tracking :
    (∀ (fuelI : Nat) (g : Graph) (i index : Nat) (v : Value) (g' : Graph),
        setArg fuelI g i index v = .ok g' → storeWF (g i) →
        argOf (g' i) index = v) ∧
    (∀ (fuelI : Nat) (g : Graph) (i index p : Nat) (g' : Graph),
        setArg fuelI g i index (.instRef p) = .ok g' →
        (g p).op ≠ .Identity →
        countUser (g p).users.list i ≤ 1 →
        countUser (g' p).users.list i = 1 ∧
          userBit (g' p).users.list i index = true) ∧
    (∀ (fuelI : Nat) (g : Graph) (i index q : Nat) (v : Value) (g' : Graph),
        setArg fuelI g i index v = .ok g' →
        index < 31 →
        argOf (g i) index = .instRef q →
        (g q).op ≠ .Identity →
        countUser (g q).users.list i ≤ 1 →
        v.inst ≠ some q →
        userBit (g' q).users.list i index = false) := by
  refine ⟨fun fuelI g i index v g' h hwf => setArg_writes fuelI g i index v g' h hwf,
    ?_, ?_⟩
  · intro fuelI g i index p g' h hop hc
    obtain ⟨-, hcase⟩ := setArg_cases fuelI g i index (.instRef p) g' h
    rcases hcase with ⟨himm, hr⟩ | ⟨q, g1, himm, hq, hrm, hr⟩
    · rcases setArgRegister_cases fuelI g i index (.instRef p) g' hr with
        ⟨himmv, rfl⟩ | ⟨p2, g2, himmv, hpv, hadd, rfl⟩
      · rw [isImmediateF_instRef_not_id g fuelI p hop] at himmv
        simp at himmv
      · simp only [Value.inst, Option.some.injEq] at hpv
        subst hpv
        obtain ⟨l, hl, rfl⟩ := addUse_cases g p i index g2 hadd
        have hpost := addUseList_post i index (g p).users.list l hl hc
        rw [writeArg_users, setInst_self]
        exact hpost
    · rcases setArgRegister_cases fuelI g1 i index (.instRef p) g' hr with
        ⟨himmv, rfl⟩ | ⟨p2, g2, himmv, hpv, hadd, rfl⟩
      · have hop1 : (g1 p).op ≠ .Identity := by
          rw [(removeUse_shape g q i index g1 hrm p).1]
          exact hop
        rw [isImmediateF_instRef_not_id g1 fuelI p hop1] at himmv
        simp at himmv
      · simp only [Value.inst, Option.some.injEq] at hpv
        subst hpv
        have hc1 : countUser (g1 p).users.list i ≤ 1 := by
          by_cases hqp : q = p
          · subst hqp
            obtain ⟨l0, hl0, rfl⟩ := removeUse_cases g q i index g1 hrm
            rw [setInst_self]
            exact removeUseList_count i index (g q).users.list l0 hl0 hc
          · rw [removeUse_other g q i index g1 hrm p (fun hh => hqp hh.symm)]
            exact hc
        obtain ⟨l, hl, rfl⟩ := addUse_cases g1 p i index g2 hadd
        have hpost := addUseList_post i index (g1 p).users.list l hl hc1
        rw [writeArg_users, setInst_self]
        exact hpost
  · intro fuelI g i index q v g' h hidx harg hop hc hvq
    obtain ⟨-, hcase⟩ := setArg_cases fuelI g i index v g' h
    rcases hcase with ⟨himm, -⟩ | ⟨q2, g1, himm, hq2, hrm, hr⟩
    · rw [harg, isImmediateF_instRef_not_id g fuelI q hop] at himm
      simp at himm
    · rw [harg] at hq2
      simp only [Value.inst, Option.some.injEq] at hq2
      subst hq2
      obtain ⟨l0, hl0, rfl⟩ := removeUse_cases g q i index g1 hrm
      have hbit0 := removeUseList_clears i index (g q).users.list l0 hl0 hc
        (by omega)
      rcases setArgRegister_cases fuelI _ i index v g' hr with
        ⟨-, rfl⟩ | ⟨p, g2, -, hpv, hadd, rfl⟩
      · rw [writeArg_users, setInst_self]
        exact hbit0
      · have hpq : q ≠ p := fun hh => hvq (by rw [hpv, hh])
        rw [writeArg_users,
          addUse_other _ p i index g2 hadd q hpq,
          setInst_self]
        exact hbit0

/-- C3 witness: setting argument index 1 of instruction 1 (previously the
immediate 3) to the value of instruction 0 merges bit 1 into the existing
user node, leaving exactly one node for user 1 with bit 1 set. -/
theorem setArg_rewires_use_tracking_witness :
    (setArg 1 sampleGraph 1 1 (.instRef 0)).map
        (fun g2 => (countUser ((g2 0).users.list) 1,
          userBit ((g2 0).users.list) 1 1)) = .ok (1, true) := by
  obtain ⟨g2, hg⟩ : ∃ gg, setArg 1 sampleGraph 1 1 (.instRef 0) = .ok gg :=
    ⟨_, rfl⟩
  have h := setArg_rewires_use_tracking.2.1 1 sampleGraph 1 1 0 g2 hg
    (by decide) (by decide)
  rw [hg]
  simp only [Except.map]
  rw [h.1, h.2]

theorem replaceUsesLoop_frame (fuelI x : Nat) (r : Value) :
    ∀ (l : List (Nat × Nat)) (g g' : Graph),
      replaceUsesLoop fuelI x r g l = .ok g' →
      (∀ j, (g' j).op = (g j).op) ∧
      (∀ j, storeWF (g j) → storeWF (g' j)) ∧
      (∀ u o, (∀ p ∈ l, p ≠ (u, o)) → argOf (g' u) o = argOf (g u) o) := by
  intro l
  induction l with
  | nil =>
      intro g g' h
      unfold replaceUsesLoop at h
      injection h with h
      subst h
      exact ⟨fun j => rfl, fun j hj => hj, fun u o _ => rfl⟩
  | cons p0 rest ih =>
      intro g g' h
      obtain ⟨u0, o0⟩ := p0
      unfold replaceUsesLoop at h
      split at h
      · split at h
        · simp at h
        · rename_i g1 hset
          obtain ⟨ih1, ih2, ih3⟩ := ih g1 g' h
          refine ⟨?_, ?_, ?_⟩
          · intro j
            rw [ih1 j, setArg_op fuelI g u0 o0 r g1 hset j]
          · intro j hj
            exact ih2 j (setArg_storeWF fuelI g u0 o0 r g1 hset j hj)
          · intro u o hne
            have hne0 : ¬ (u = u0 ∧ o = o0) := by
              intro hc
              exact hne (u0, o0) (List.mem_cons_self _ _) (by rw [hc.1, hc.2])
            rw [ih3 u o (fun p hp => hne p (List.mem_cons_of_mem _ hp)),
              setArg_argOf_ne fuelI g u0 o0 r g1 hset u o hne0]
      · simp at h

theorem replaceUsesLoop_sets (fuelI x : Nat) (r : Value) :
    ∀ (l : List (Nat × Nat)) (g g' : Graph),
      replaceUsesLoop fuelI x r g l = .ok g' →
      (∀ j, storeWF (g j)) → l.Nodup →
      ∀ p ∈ l, argOf (g' p.1) p.2 = r := by
  intro l
  induction l with
  | nil =>
      intro g g' h hwf hnd p hp
      simp at hp
  | cons p0 rest ih =>
      intro g g' h hwf hnd p hp
      obtain ⟨u0, o0⟩ := p0
      unfold replaceUsesLoop at h
      split at h
      · split at h
        · simp at h
        · rename_i g1 hset
          have hwf1 : ∀ j, storeWF (g1 j) :=
            fun j => setArg_storeWF fuelI g u0 o0 r g1 hset j (hwf j)
          rcases List.mem_cons.1 hp with rfl | hp2
          · show argOf (g' u0) o0 = r
            have hset0 : argOf (g1 u0) o0 = r :=
              setArg_writes fuelI g u0 o0 r g1 hset (hwf u0)
            have hfr := (replaceUsesLoop_frame fuelI x r rest g1 g' h).2.2
            have hrest : ∀ q ∈ rest, q ≠ (u0, o0) := by
              intro q hq hqe
              rw [hqe] at hq
              exact (List.nodup_cons.1 hnd).1 hq
            rw [hfr u0 o0 hrest]
            exact hset0
          · exact ih g1 g' h hwf1 (List.nodup_cons.1 hnd).2 p hp2
      · simp at h

theorem usesOf_mem (l : List UserNode) (p : Nat × Nat) (hp : p ∈ usesOf l) :
    ∃ n ∈ l, p.1 = n.user := by
  unfold usesOf at hp
  rw [List.mem_flatMap] at hp
  obtain ⟨n, hn, hpn⟩ := hp
  rw [List.mem_map] at hpn
  obtain ⟨b, -, rfl⟩ := hpn
  exact ⟨n, hn, rfl⟩

theorem bitsOf_nodup (mask : Nat) : (bitsOf mask).Nodup :=
  List.Nodup.filter _ (List.nodup_range 31)

theorem usesOf_nodup (l : List UserNode)
    (h : l.Pairwise (fun a b => a.user ≠ b.user)) : (usesOf l).Nodup := by
  induction l with
  | nil => simp [usesOf]
  | cons n rest ih =>
      rw [List.pairwise_cons] at h
      unfold usesOf
      rw [List.flatMap_cons, List.nodup_append]
      refine ⟨?_, ih h.2, ?_⟩
      · exact List.Nodup.map (fun a b hab => congrArg Prod.snd hab)
          (bitsOf_nodup n.operand_mask)
      · intro p hp1 hp2
        rw [List.mem_map] at hp1
        obtain ⟨b, -, rfl⟩ := hp1
        obtain ⟨m, hm, huser⟩ := usesOf_mem rest (n.user, b) hp2
        exact absurd huser (h.1 m hm)

theorem clearArgsLoop_frame (fuelI i : Nat) :
    ∀ (l : List (Nat × Value)) (g g' : Graph),
      clearArgsLoop fuelI i g l = .ok g' →
      ∀ j, (g' j).op = (g j).op ∧ (g' j).store = (g j).store := by
  intro l
  induction l with
  | nil =>
      intro g g' h j
      unfold clearArgsLoop at h
      injection h with h
      subst h
      exact ⟨rfl, rfl⟩
  | cons pv rest ih =>
      intro g g' h j
      obtain ⟨idx, v⟩ := pv
      unfold clearArgsLoop at h
      split at h
      · simp at h
      · exact ih g g' h j
      · split at h
        · simp at h
        · rename_i p hp
          split at h
          · simp at h
          · rename_i g1 hg1
            obtain ⟨h1, h2⟩ := removeUse_shape g p i idx g1 hg1 j
            obtain ⟨h3, h4⟩ := ih g1 g' h j
            exact ⟨h3.trans h1, h4.trans h2⟩

theorem clearArgs_result (fuelI : Nat) (g : Graph) (i : Nat) (g' : Graph)
    (h : clearArgs fuelI g i = .ok g') :
    (∀ j, j ≠ i → (g' j).op = (g j).op ∧ (g' j).store = (g j).store) ∧
    (g' i).op = (g i).op ∧
    ((g i).op = .Phi → (g' i).store = .phiArgs []) ∧
    ((g i).op ≠ .Phi → (g' i).store = .args (List.replicate 6 .void)) := by
  unfold clearArgs at h
  split at h
  · rename_i hphi
    split at h
    · rename_i l hst
      split at h
      · simp at h
      · rename_i g1 hloop
        injection h with h
        subst h
        have hfr := clearArgsLoop_frame fuelI i _ g g1 hloop
        refine ⟨?_, ?_, ?_, ?_⟩
        · intro j hj
          rw [setInst_ne _ _ _ _ hj]
          exact hfr j
        · rw [setInst_self]
          exact (hfr i).1
        · intro hx
          rw [setInst_self]
        · intro hcontra
          exact absurd hphi hcontra
    · simp at h
  · rename_i hphi
    split at h
    · rename_i a hst
      split at h
      · simp at h
      · rename_i g1 hloop
        injection h with h
        subst h
        have hfr := clearArgsLoop_frame fuelI i _ g g1 hloop
        refine ⟨?_, ?_, ?_, ?_⟩
        · intro j hj
          rw [setInst_ne _ _ _ _ hj]
          exact hfr j
        · rw [setInst_self]
          exact (hfr i).1
        · intro hcontra
          exact absurd hcontra hphi
        · intro hx
          rw [setInst_self]
    · simp at h

theorem replaceOpcode_result (g : Graph) (i : Nat) (opc : Opcode) (g' : Graph)
    (h : replaceOpcode g i opc = .ok g') :
    (∀ j, j ≠ i → g' j = g j) ∧ (g' i).op = opc ∧
    ((g i).op = .Phi → (g' i).store = .args (List.replicate 6 .void)) ∧
    ((g i).op ≠ .Phi → (g' i).store = (g i).store) := by
  unfold replaceOpcode at h
  split at h
  · simp at h
  · injection h with h
    subst h
    refine ⟨fun j hj => setInst_ne _ _ _ _ hj, ?_, ?_, ?_⟩
    · rw [setInst_self]
      split <;> rfl
    · intro hphi
      rw [setInst_self, if_pos hphi]
    · intro hphi
      rw [setInst_self, if_neg hphi]

theorem invalidate_result (fuelI : Nat) (g : Graph) (i : Nat) (g' : Graph)
    (h : invalidate fuelI g i = .ok g') :
    (∀ j, j ≠ i → (g' j).op = (g j).op ∧ (g' j).store = (g j).store) ∧
    (g' i).op = .Void ∧ (g' i).store = .args (List.replicate 6 .void) := by
  unfold invalidate at h
  split at h
  · simp at h
  · rename_i g1 hclear
    split at h
    · obtain ⟨hcfr, hcop, hcphi, hcnophi⟩ := clearArgs_result fuelI g i g1 hclear
      obtain ⟨hrfr, hrop, hrphi, hrnophi⟩ := replaceOpcode_result g1 i .Void g' h
      refine ⟨?_, hrop, ?_⟩
      · intro j hj
        rw [hrfr j hj]
        exact hcfr j hj
      · by_cases hphi : (g i).op = .Phi
        · rw [hrphi (by rw [hcop]; exact hphi)]
        · rw [hrnophi (by rw [hcop]; exact hphi), hcnophi hphi]
    · simp at h

/-- C4: after a successful ReplaceUsesWith(R, preserve = true) on
instruction X of a well-formed graph (union/capacity invariant everywhere,
at most one user-list node per user with X not among its own users), every
former use site's argument at the recorded position is the raw value R, X
has become an Identity instruction whose sole argument is R, and a
lingering Value still pointing at X resolves (through one extra Identity
hop) to exactly what R resolves to. -/
theorem replaceUsesWith_preserve_rewires
    (fuelI : Nat) (g : Graph) (x : Nat) (r : Value) (g' : Graph)
    (hok : replaceUsesWith fuelI g x r true = .ok g')
    (hwf : ∀ j, storeWF (g j))
    (hnodup : (g x).users.list.Pairwise (fun a b => a.user ≠ b.user))
    (hnotself : ∀ n ∈ (g x).users.list, n.user ≠ x) :
    (∀ p ∈ usesOf (g x).users.list, argOf (g' p.1) p.2 = r) ∧
    (g' x).op = .Identity ∧ argOf (g' x) 0 = r ∧
    (∀ f v, resolveF g' f r = some v →
      resolveF g' (f + 1) (.instRef x) = some v) := by
  unfold replaceUsesWith at hok
  split at hok
  · simp at hok
  · rename_i g1 hloop
    split at hok
    · simp at hok
    · rename_i g2 hinv
      rw [if_pos rfl] at hok
      split at hok
      · simp at hok
      · rename_i g3 hrepl
        obtain ⟨hIfr, hIop, hIst⟩ := invalidate_result fuelI g1 x g2 hinv
        obtain ⟨hRfr, hRop, hRphi, hRnophi⟩ :=
          replaceOpcode_result g2 x .Identity g3 hrepl
        have hg3store : (g3 x).store = .args (List.replicate 6 .void) := by
          rw [hRnophi (by rw [hIop]; simp)]
          exact hIst
        have hg3wf : storeWF (g3 x) := by
          unfold storeWF
          rw [hg3store]
          exact ⟨by simp, by rw [hRop]; simp⟩
        have hxop : (g' x).op = .Identity := by
          rw [setArg_op fuelI g3 x 0 r g' hok x, hRop]
        have hxarg : argOf (g' x) 0 = r :=
          setArg_writes fuelI g3 x 0 r g' hok hg3wf
        refine ⟨?_, hxop, hxarg, ?_⟩
        · intro p hp
          obtain ⟨n, hn, hpu⟩ := usesOf_mem (g x).users.list p hp
          have hpx : p.1 ≠ x := by
            rw [hpu]
            exact hnotself n hn
          have h1 : argOf (g1 p.1) p.2 = r :=
            replaceUsesLoop_sets fuelI x r (usesOf (g x).users.list) g g1 hloop
              hwf (usesOf_nodup _ hnodup) p hp
          have h2 : argOf (g2 p.1) p.2 = argOf (g1 p.1) p.2 :=
            argOf_eq_of _ _ (hIfr p.1 hpx).1 (hIfr p.1 hpx).2 p.2
          have h3 : argOf (g3 p.1) p.2 = argOf (g2 p.1) p.2 := by
            rw [hRfr p.1 hpx]
          have h4 : argOf (g' p.1) p.2 = argOf (g3 p.1) p.2 :=
            setArg_argOf_ne fuelI g3 x 0 r g' hok p.1 p.2 (fun hc => hpx hc.1)
          rw [h4, h3, h2, h1]
        · intro f v hv
          have hstep : resolveF g' (f + 1) (.instRef x) =
              if (g' x).op = .Identity then resolveF g' f (argOf (g' x) 0)
              else some (.instRef x) := rfl
          rw [hstep, if_pos hxop, hxarg]
          exact hv

/-- C4 witness: on the sample graph, replacing every use of instruction 0
with the immediate 7 while preserving rewires user 1's first argument to
the immediate and turns instruction 0 into Identity(7). -/
theorem replaceUsesWith_preserve_rewires_witness :
    (replaceUsesWith 2 sampleGraph 0 (.immU32 7) true).map
        (fun g2 => (argOf (g2 1) 0, (g2 0).op, argOf (g2 0) 0)) =
      .ok (.immU32 7, .Identity, .immU32 7) := by
  obtain ⟨g2, hg⟩ :
      ∃ gg, replaceUsesWith 2 sampleGraph 0 (.immU32 7) true = .ok gg :=
    ⟨_, rfl⟩
  have hwf : ∀ j, storeWF (sampleGraph j) := by
    intro j
    unfold sampleGraph
    by_cases h0 : j = 0
    · rw [if_pos h0]
      exact ⟨rfl, by decide⟩
    · rw [if_neg h0]
      by_cases h1 : j = 1
      · rw [if_pos h1]
        exact ⟨rfl, by decide⟩
      · rw [if_neg h1]
        exact ⟨rfl, by decide⟩
  have h := replaceUsesWith_preserve_rewires 2 sampleGraph 0 (.immU32 7) g2 hg
    hwf (by simp [sampleGraph]) (by decide)
  have h1 : argOf (g2 1) 0 = Value.immU32 7 := h.1 (1, 0) (by decide)
  rw [hg]
  simp only [Except.map]
  rw [h1, h.2.1, h.2.2.1]

end Micro

end Shad
